import Mathlib

/-!
Verification of the incremental synchronization engine of `crawl.py`
(yuque-exporter): a shallow embedding of the cache layer, the remote SDK
contract, the timestamp comparator and the crawl orchestration, together
with theorems settling the specification claims.

Modelling conventions:
* The on-disk metadata store is a pair of association lists: file paths
  mapped to parsed JSON contents, plus the list of directories created by
  `os.makedirs`.  A directory also exists implicitly when a file or a
  recorded directory lives strictly below it.
* A record's `updated_at` field holds the value `dateutil.parser.parse`
  would produce, as microseconds since the epoch (`Option Int`; `none`
  stands for an absent or unparseable timestamp, on which the parser
  raises).
* Python exceptions are modelled by threading `Option Err` through the
  orchestration: when a step raises, the store and event trace produced so
  far are kept and the error propagates, exactly as an uncaught Python
  exception unwinds past the remaining statements.
* Every store mutation (file write, file removal, subtree removal) is
  recorded in an event trace so that claims about "writes performed by a
  run" and about write ordering can be stated.
-/

namespace Crawl

/-- The exception kinds that can surface while the crawler runs. -/
inductive Err
  | remoteRequestFailed
  | malformedTimestamp
  | fileNotFound
  | storageIOFailure
  | typeMismatch
deriving DecidableEq, Repr

/-- An entity record (account, repository or document): the JSON dictionary
fields `crawl.py` actually touches.  Unused fields default so concrete
records stay short.  `payload` distinguishes otherwise identical detail
records. -/
structure Rec where
  slug : String := ""
  title : String := ""
  login : String := ""
  ns : String := ""
  updated_at : Option Int := none
  toc_yml : String := ""
  payload : Nat := 0
deriving DecidableEq, Repr

/-- Parsed content of a stored file: a single record, a collection
snapshot, or plain text (the table-of-contents file). -/
inductive Content
  | record (r : Rec)
  | list (l : List Rec)
  | text (t : String)
deriving DecidableEq, Repr

abbrev Path := String

/-- A store mutation event, recorded in program order. -/
inductive Event
  | write (p : Path) (c : Content)
  | remove (p : Path)
  | rmtreeE (p : Path)
deriving DecidableEq, Repr

abbrev Trace := List Event

/-- The filesystem under the storage root: files keyed by full path, plus
explicitly created directories. -/
structure Store where
  files : List (Path × Content)
  dirs : List Path
deriving DecidableEq, Repr

/-- `strPre p q`: the string `p` is a prefix of the string `q`
(character-wise). -/
def strPre (p q : String) : Bool := p.data.isPrefixOf q.data

/-- Content of the file at `p`, if a file is stored there. -/
def Store.getFile (s : Store) (p : Path) : Option Content :=
  List.lookup p s.files

/-- `os.path.isdir`: a directory exists when it was created explicitly or
when some file or created directory lives strictly below it. -/
def Store.isDir (s : Store) (p : Path) : Bool :=
  s.dirs.any (fun d => d == p || strPre (p ++ "/") d) ||
  s.files.any (fun f => strPre (p ++ "/") f.1)

/-- `os.path.exists`: a file or a directory is present at `p`. -/
def Store.pathExists (s : Store) (p : Path) : Bool :=
  (s.getFile p).isSome || s.isDir p

/-- The first path segment of `q` after the prefix `pre`. -/
def nextSeg (pre q : String) : String :=
  ⟨(q.data.drop pre.data.length).takeWhile (fun c => c != '/')⟩

/-- Lexicographic comparison of character lists by code point. -/
def charListLe : List Char → List Char → Bool
  | [], _ => true
  | _ :: _, [] => false
  | x :: xs, y :: ys =>
    if x.toNat < y.toNat then true
    else if y.toNat < x.toNat then false
    else charListLe xs ys

/-- Lexicographic string comparison (Python's default string order). -/
def strLeB (a b : String) : Bool := charListLe a.data b.data

/-- Insert into a sorted list. -/
def insertStr (x : String) : List String → List String
  | [] => [x]
  | y :: ys => if strLeB x y then x :: y :: ys else y :: insertStr x ys

/-- Python's `sorted` on strings: stable insertion sort, ascending. -/
def sortStr : List String → List String
  | [] => []
  | x :: xs => insertStr x (sortStr xs)

/-- Remove duplicate names (the set-like result of `os.listdir`). -/
def dedupStr : List String → List String
  | [] => []
  | x :: xs =>
    let r := dedupStr xs
    if r.contains x then r else x :: r

/-- `str.endswith(suf)`. -/
def endsWithB (suf s : String) : Bool :=
  suf.data.reverse.isPrefixOf s.data.reverse

/-- Python's `x[:-n]`: all characters but the last `n`. -/
def dropRightStr (s : String) (n : Nat) : String :=
  ⟨s.data.take (s.data.length - n)⟩

/-- The children names of directory `p`: first segments of every file or
directory path below `p`, deduplicated and sorted (Python's
`sorted(os.listdir(dir))`). -/
def Store.listdirNames (s : Store) (p : Path) : List String :=
  let pre := p ++ "/"
  let names := (s.files.map (fun f => f.1) ++ s.dirs).filterMap
    (fun q => if strPre pre q then some (nextSeg pre q) else none)
  sortStr (dedupStr names)

/-- `os.listdir`: raises `FileNotFoundError` when the directory is absent
and `NotADirectoryError` when the path is a plain file. -/
def Store.listdir (s : Store) (p : Path) : Except Err (List String) :=
  if s.isDir p then .ok (s.listdirNames p)
  else if s.pathExists p then .error .storageIOFailure
  else .error .fileNotFound

/-- Write (create or overwrite in place) the file at `p`. -/
def Store.writeFile (s : Store) (p : Path) (c : Content) : Store :=
  if s.files.any (fun f => f.1 == p) then
    { s with files := s.files.map (fun f => if f.1 = p then (p, c) else f) }
  else
    { s with files := s.files ++ [(p, c)] }

/-- `os.remove`: delete the file at `p`. -/
def Store.removeFile (s : Store) (p : Path) : Store :=
  { s with files := s.files.filter (fun f => !(f.1 == p)) }

/-- `shutil.rmtree`: delete the directory at `p` and everything below it. -/
def Store.rmtree (s : Store) (p : Path) : Store :=
  { s with
    files := s.files.filter (fun f => !(f.1 == p || strPre (p ++ "/") f.1)),
    dirs := s.dirs.filter (fun d => !(d == p || strPre (p ++ "/") d)) }

/-- `os.makedirs(p, exist_ok=True)`: record the directory `p`; its
ancestors then exist implicitly (`Store.isDir` looks below `p`). -/
def Store.makedirs (s : Store) (p : Path) : Store :=
  if s.dirs.contains p then s else { s with dirs := s.dirs ++ [p] }

/-- `os.path.dirname`: everything before the last `/` of `p`. -/
def dirname (p : Path) : Path :=
  ⟨((p.data.reverse.dropWhile (fun c => c != '/')).drop 1).reverse⟩

def storage_dir : String := "storage"

def meta_dir : String := "storage/.meta"

/-- `save_to_storage`: create the parent directory, write the file under
the metadata root, and record the write event. -/
def save_to_storage (s : Store) (tr : Trace) (filepath : String) (content : Content) :
    Store × Trace :=
  let path := meta_dir ++ "/" ++ filepath
  let s1 := s.makedirs (dirname path)
  (s1.writeFile path content, tr ++ [Event.write path content])

/-- `Cache.request`: return the parsed content of
`{meta_dir}/{cache_name or api}.json` when that path exists, and `None`
otherwise.  Opening a directory as a file raises. -/
def Cache.request (s : Store) (api : String) (cache_name : Option String) :
    Except Err (Option Content) :=
  let cache_path := meta_dir ++ "/" ++ (cache_name.getD api) ++ ".json"
  if s.pathExists cache_path then
    match s.getFile cache_path with
    | some c => .ok (some c)
    | none => .error .storageIOFailure
  else .ok none

def Cache.get_user (s : Store) : Except Err (Option Content) :=
  Cache.request s "user" none

def Cache.get_repos (s : Store) (user : String) : Except Err (Option Content) :=
  Cache.request s (user ++ "/repos") none

def Cache.get_repo_detail (s : Store) (ns : String) : Except Err (Option Content) :=
  Cache.request s (ns ++ "/repo") none

def Cache.get_docs (s : Store) (ns : String) : Except Err (Option Content) :=
  Cache.request s (ns ++ "/docs") none

def Cache.get_doc_detail (s : Store) (ns name : String) : Except Err (Option Content) :=
  Cache.request s (ns ++ "/docs/" ++ name) none

/-- `Cache.get_local_repo_names`: list `{meta_dir}/{user}` (raising
`FileNotFoundError` when that directory does not exist) and keep the
entries that are directories. -/
def Cache.get_local_repo_names (s : Store) (user : String) : Except Err (List String) :=
  let dir := meta_dir ++ "/" ++ user
  match s.listdir dir with
  | .error e => .error e
  | .ok names => .ok (names.filter (fun x => s.isDir (dir ++ "/" ++ x)))

/-- `Cache.get_doc_names`: names of the materialized document detail files
under `{meta_dir}/{ns}/docs`, or `[]` when that directory is absent. -/
def Cache.get_doc_names (s : Store) (ns : String) : Except Err (List String) :=
  let dir := meta_dir ++ "/" ++ ns ++ "/docs"
  if s.pathExists dir then
    match s.listdir dir with
    | .error e => .error e
    | .ok names =>
      .ok ((names.filter (fun x => endsWithB ".json" x)).map (fun x => dropRightStr x 5))
  else .ok []

/-- `dateutil.parser.parse` applied to a record field: yields the parsed
timestamp or raises when the field is absent or unparseable. -/
def parse_ts : Option Int → Except Err Int
  | some t => .ok t
  | none => .error .malformedTimestamp

/-- The `seconds` component of a Python `timedelta` built from a
microsecond difference: `timedelta` normalizes with floor division so that
`0 <= seconds < 86400`, hence `seconds = (usec // 10^6) % 86400`. -/
def timedelta_seconds (usec : Int) : Int :=
  (Int.fdiv usec 1000000) % 86400

/-- `has_update(cached_d, d)`: parse both `updated_at` values, subtract,
and return `diff.seconds > 0` (the normalized seconds component of the
timedelta, not the total). -/
def has_update (cached_d d : Rec) : Except Err Bool :=
  match parse_ts cached_d.updated_at with
  | .error e => .error e
  | .ok old_updated_at =>
    match parse_ts d.updated_at with
    | .error e => .error e
    | .ok updated_at =>
      .ok (decide (0 < timedelta_seconds (updated_at - old_updated_at)))

/-- The remote source (`SDK`): total lookups for the data every claim
needs, with the document-detail fetch allowed to fail with
`RemoteRequestFailed`. -/
structure Remote where
  user : Rec
  repos : List Rec
  repoDetail : String → Rec
  docs : String → List Rec
  docDetail : String → String → Except Unit Rec

/-- `cached_candidates[0]`: the first record of the cached list whose slug
matches. -/
def first_candidate (l : List Rec) (slug : String) : Option Rec :=
  (l.filter (fun x => x.slug == slug)).head?

/-- Lines 132-138 of `crawl.py`: decide whether a document's detail must
be fetched, from the cached document list (if any) and the remote record.
`ok true` means fetch, `ok false` means skip (`continue`). -/
def docDecision (cached_docs : Option Content) (doc : Rec) : Except Err Bool :=
  match cached_docs with
  | none => .ok true
  | some (Content.list cds) =>
    match first_candidate cds doc.slug with
    | none => .ok true
    | some cached_doc => has_update cached_doc doc
  | some _ => .error .typeMismatch

/-- Lines 207-213 of `crawl.py`: decide whether a repository must be
crawled, from the cached repository list (if any) and the remote record. -/
def repoDecision (cached_repos : Option Content) (repo : Rec) : Except Err Bool :=
  match cached_repos with
  | none => .ok true
  | some (Content.list cds) =>
    match first_candidate cds repo.slug with
    | none => .ok true
    | some cached_repo => has_update cached_repo repo
  | some _ => .error .typeMismatch

/-- Lines 120-127 of `crawl.py`: for every cached document name absent
from the remote listing, remove `{meta_dir}/{ns}/{name}.json` when that
path exists.  (Note the path: the details were saved under
`{ns}/docs/{name}.json`.) -/
def removeOldDocs (ns : String) (doc_names : List String) :
    List String → Store → Trace → Store × Trace
  | [], s, tr => (s, tr)
  | n :: rest, s, tr =>
    if n ∈ doc_names then removeOldDocs ns doc_names rest s tr
    else
      let path := meta_dir ++ "/" ++ ns ++ "/" ++ n ++ ".json"
      if s.pathExists path then
        removeOldDocs ns doc_names rest (s.removeFile path) (tr ++ [Event.remove path])
      else removeOldDocs ns doc_names rest s tr

/-- Lines 131-142 of `crawl.py`: for each remote document in order, decide
via the cached list, fetch the detail (an uncaught failure aborts the
whole loop) and persist it under `{ns}/docs/{slug}.json`. -/
def crawlDocsLoop (R : Remote) (ns : String) (cached_docs : Option Content) :
    List Rec → Store → Trace → Store × Trace × Option Err
  | [], s, tr => (s, tr, none)
  | doc :: rest, s, tr =>
    match docDecision cached_docs doc with
    | .error e => (s, tr, some e)
    | .ok false => crawlDocsLoop R ns cached_docs rest s tr
    | .ok true =>
      match R.docDetail ns doc.slug with
      | .error _ => (s, tr, some Err.remoteRequestFailed)
      | .ok doc_detail =>
        let st := save_to_storage s tr (ns ++ "/docs/" ++ doc.slug ++ ".json")
          (Content.record doc_detail)
        crawlDocsLoop R ns cached_docs rest st.1 st.2

/-- Lines 114-116 of `crawl.py`: proceed when no cached repository detail
exists, otherwise proceed exactly when `has_update` holds; a cached value
of the wrong shape makes the field access raise. -/
def repoDetailDecision (cached_repo : Option Content) (repo : Rec) : Except Err Bool :=
  match cached_repo with
  | none => .ok true
  | some (Content.record cr) => has_update cr repo
  | some _ => .error Err.typeMismatch

/-- `crawl_repo`: compare the cached repository detail against the remote
one and return early when unchanged; otherwise run the document deletion
pass, the per-document pass, and persist the document list, the table of
contents and the repository detail. -/
def crawl_repo (R : Remote) (ns : String) (s : Store) (tr : Trace) :
    Store × Trace × Option Err :=
  match Cache.get_repo_detail s ns with
  | .error e => (s, tr, some e)
  | .ok cached_repo =>
    let repo := R.repoDetail ns
    match repoDetailDecision cached_repo repo with
    | .error e => (s, tr, some e)
    | .ok false => (s, tr, none)
    | .ok true =>
      let docs := R.docs ns
      let doc_names := docs.map (fun x => x.slug)
      match Cache.get_doc_names s ns with
      | .error e => (s, tr, some e)
      | .ok cached_names =>
        let srm := removeOldDocs ns doc_names cached_names s tr
        match Cache.get_docs srm.1 ns with
        | .error e => (srm.1, srm.2, some e)
        | .ok cached_docs =>
          match crawlDocsLoop R ns cached_docs docs srm.1 srm.2 with
          | (s2, tr2, some e) => (s2, tr2, some e)
          | (s2, tr2, none) =>
            let a := save_to_storage s2 tr2 (ns ++ "/docs.json") (Content.list docs)
            let b := save_to_storage a.1 a.2 (ns ++ "/toc.yaml") (Content.text repo.toc_yml)
            let c := save_to_storage b.1 b.2 (ns ++ "/repo.json") (Content.record repo)
            (c.1, c.2, none)

/-- Lines 205-214 of `crawl.py`: the per-repository loop.  An unchanged
repository is skipped (`continue`); otherwise `crawl_repo` runs and an
uncaught exception aborts the remaining iterations. -/
def crawlReposLoop (R : Remote) (cached_repos : Option Content) :
    List Rec → Store → Trace → Store × Trace × Option Err
  | [], s, tr => (s, tr, none)
  | repo :: rest, s, tr =>
    match repoDecision cached_repos repo with
    | .error e => (s, tr, some e)
    | .ok false => crawlReposLoop R cached_repos rest s tr
    | .ok true =>
      match crawl_repo R repo.ns s tr with
      | (s2, tr2, some e) => (s2, tr2, some e)
      | (s2, tr2, none) => crawlReposLoop R cached_repos rest s2 tr2

/-- Lines 186-189 of `crawl.py`: the account record is considered updated
unless a cached account exists and compares as not-newer. -/
def userUpdated (cached : Option Content) (user_info : Rec) : Except Err Bool :=
  match cached with
  | none => .ok true
  | some (Content.record cr) => has_update cr user_info
  | some _ => .error Err.typeMismatch

/-- Lines 197-201 of `crawl.py`: remove every local repository directory
whose name is absent from the remote repository listing. -/
def removeOldRepos (login : String) (repo_names : List String) :
    List String → Store → Trace → Store × Trace
  | [], s, tr => (s, tr)
  | n :: rest, s, tr =>
    if n ∈ repo_names then removeOldRepos login repo_names rest s tr
    else
      let path := meta_dir ++ "/" ++ login ++ "/" ++ n
      removeOldRepos login repo_names rest (s.rmtree path) (tr ++ [Event.rmtreeE path])

/-- `main`: the whole sync run — account refresh, repository deletion
pass, per-repository crawl, and the final unconditional write of the
repository list.  Any uncaught exception stops the run at that point,
keeping the store and trace accumulated so far. -/
def main (R : Remote) (s0 : Store) : Store × Trace × Option Err :=
  let s := s0.makedirs meta_dir
  match Cache.get_user s with
  | .error e => (s, [], some e)
  | .ok cached_user_info =>
    let user_info := R.user
    match userUpdated cached_user_info user_info with
    | .error e => (s, [], some e)
    | .ok user_info_updated =>
      let st1 := if user_info_updated then
          save_to_storage s [] "user.json" (Content.record user_info)
        else (s, [])
      let login := user_info.login
      let repos := R.repos
      let repo_names := repos.map (fun x => x.slug)
      match Cache.get_local_repo_names st1.1 login with
      | .error e => (st1.1, st1.2, some e)
      | .ok local_names =>
        let st2 := removeOldRepos login repo_names local_names st1.1 st1.2
        match Cache.get_repos st2.1 login with
        | .error e => (st2.1, st2.2, some e)
        | .ok cached_repos =>
          match crawlReposLoop R cached_repos repos st2.1 st2.2 with
          | (s3, tr3, some e) => (s3, tr3, some e)
          | (s3, tr3, none) =>
            let st4 := save_to_storage s3 tr3 (login ++ "/repos.json") (Content.list repos)
            (st4.1, st4.2, none)


/-! ### Concrete remote states and caches used by counterexamples and witnesses -/

/-- Remote state for the orphan-deletion scenario: the repository `a/r`
has no remote documents any more. -/
def Rc2 : Remote := {
  user := { login := "a", updated_at := some 0 }
  repos := [{ slug := "r", ns := "a/r", updated_at := some 0 }]
  repoDetail := fun _ => { slug := "r", ns := "a/r", updated_at := some 0, toc_yml := "t" }
  docs := fun _ => []
  docDetail := fun _ _ => .ok { slug := "d" } }

/-- Cache holding the (now orphaned) detail of document `x` and a cached
document list for repository `a/r`; no cached repository detail, so
`crawl_repo` runs its deletion pass. -/
def sc2 : Store := {
  files := [("storage/.meta/a/r/docs/x.json", Content.record { slug := "x", updated_at := some 0 }),
            ("storage/.meta/a/r/docs.json", Content.list [{ slug := "x", updated_at := some 0 }])]
  dirs := [] }

/-- Remote state for the masked-update scenario: repository `r` has the
same `updated_at` as its cached counterpart, but its document `d` is two
seconds newer than the cached copy and carries new detail (`payload 2`). -/
def Rc3 : Remote := {
  user := { login := "a", updated_at := some 0 }
  repos := [{ slug := "r", ns := "a/r", updated_at := some 1000000 }]
  repoDetail := fun _ => { slug := "r", ns := "a/r", updated_at := some 1000000, toc_yml := "t" }
  docs := fun _ => [{ slug := "d", updated_at := some 3000000 }]
  docDetail := fun _ _ => .ok { slug := "d", updated_at := some 3000000, payload := 2 } }

/-- Cache for the masked-update scenario: everything cached, the document
detail still at `payload 1`. -/
def sc3 : Store := {
  files := [("storage/.meta/user.json", Content.record { login := "a", updated_at := some 0 }),
            ("storage/.meta/a/repos.json",
              Content.list [{ slug := "r", ns := "a/r", updated_at := some 1000000 }]),
            ("storage/.meta/a/r/repo.json",
              Content.record { slug := "r", ns := "a/r", updated_at := some 1000000, toc_yml := "t" }),
            ("storage/.meta/a/r/docs.json",
              Content.list [{ slug := "d", updated_at := some 1000000 }]),
            ("storage/.meta/a/r/docs/d.json",
              Content.record { slug := "d", updated_at := some 1000000, payload := 1 })]
  dirs := [] }

/-- Remote state for the partial-failure scenario: two fresh documents,
the fetch of `d1` fails, the fetch of `d2` would succeed. -/
def Rc4 : Remote := {
  user := { login := "a", updated_at := some 0 }
  repos := [{ slug := "r", ns := "a/r", updated_at := some 0 }]
  repoDetail := fun _ => { slug := "r", ns := "a/r", updated_at := some 0 }
  docs := fun _ => [{ slug := "d1", updated_at := some 0 }, { slug := "d2", updated_at := some 0 }]
  docDetail := fun _ n => if n == "d1" then .error () else .ok { slug := n, payload := 2 } }

/-- Empty cache apart from the account directory, so the run reaches the
document loop. -/
def sc4 : Store := { files := [], dirs := ["storage/.meta/a"] }

/-- Remote state for the idempotence scenario: one repository with one
document. -/
def Rc5 : Remote := {
  user := { login := "a", updated_at := some 0 }
  repos := [{ slug := "r", ns := "a/r", updated_at := some 0 }]
  repoDetail := fun _ => { slug := "r", ns := "a/r", updated_at := some 0, toc_yml := "t" }
  docs := fun _ => [{ slug := "d", updated_at := some 0 }]
  docDetail := fun _ n => .ok { slug := n, updated_at := some 0, payload := 1 } }

/-- Initial cache for the idempotence scenario: empty, with the account
directory present so the first run succeeds. -/
def sc5 : Store := { files := [], dirs := ["storage/.meta/a"] }

/-- Remote state for the first-run scenario: one repository with one
document, everything fetchable. -/
def Rc6 : Remote := {
  user := { login := "a", updated_at := some 0 }
  repos := [{ slug := "r", ns := "a/r", updated_at := some 0 }]
  repoDetail := fun _ => { slug := "r", ns := "a/r", updated_at := some 0, toc_yml := "t" }
  docs := fun _ => [{ slug := "d", updated_at := some 0 }]
  docDetail := fun _ n => .ok { slug := n, payload := 1 } }

/-- A completely empty cache: no files, no directories. -/
def sc6 : Store := { files := [], dirs := [] }

/-- Remote state for the malformed-timestamp scenario: two repositories,
both healthy remotely. -/
def Rc7 : Remote := {
  user := { login := "a", updated_at := some 0 }
  repos := [{ slug := "r1", ns := "a/r1", updated_at := some 5000000 },
            { slug := "r2", ns := "a/r2", updated_at := some 5000000 }]
  repoDetail := fun _ => { updated_at := some 5000000, toc_yml := "t" }
  docs := fun _ => []
  docDetail := fun _ _ => .ok {} }

/-- Cache whose repository list holds a record for `r1` with a missing
(unparseable) `updated_at`. -/
def sc7 : Store := {
  files := [("storage/.meta/user.json", Content.record { login := "a", updated_at := some 0 }),
            ("storage/.meta/a/repos.json", Content.list [{ slug := "r1" }])]
  dirs := [] }

/-- Remote state used by the write-ordering witness. -/
def Rc8 : Remote := {
  user := { login := "a", updated_at := some 0 }
  repos := [{ slug := "r", ns := "a/r", updated_at := some 0 }]
  repoDetail := fun _ => { slug := "r", ns := "a/r", updated_at := some 0, toc_yml := "t" }
  docs := fun _ => [{ slug := "d", updated_at := some 0 }]
  docDetail := fun _ n => .ok { slug := n, payload := 3 } }

/-- Cache used by the write-ordering witness. -/
def sc8 : Store := { files := [], dirs := ["storage/.meta/a"] }


/-- Proof-internal: the path prefix of everything below the account
directory. -/
def loginPre (login : String) : Path := meta_dir ++ "/" ++ login ++ "/"

/-- Proof-internal invariant relating a store to the remote repository
slugs `rns`: every stored file strictly below the account directory whose
first segment is not a remote slug is exactly one level deep (a plain
file such as `repos.json`), and every recorded directory below the
account directory has a remote slug as its first segment. -/
def INV (login : String) (rns : List String) (X : Store) : Prop :=
  (∀ f ∈ X.files, strPre (loginPre login) f.1 = true →
    nextSeg (loginPre login) f.1 ∉ rns →
    f.1 = loginPre login ++ nextSeg (loginPre login) f.1) ∧
  (∀ d ∈ X.dirs, strPre (loginPre login) d = true → nextSeg (loginPre login) d ∈ rns)

/-! ### Helper lemmas -/

/-- The first matching candidate of a cached list whose earlier entries do
not match. -/
theorem first_candidate_append (pre post : List Rec) (c : Rec) (slug : String)
    (hpre : ∀ x ∈ pre, x.slug ≠ slug) (hc : c.slug = slug) :
    first_candidate (pre ++ c :: post) slug = some c := by
  unfold first_candidate
  rw [List.filter_append]
  have h1 : pre.filter (fun x => x.slug == slug) = [] :=
    List.filter_eq_nil_iff.mpr (fun x hx => by simp [hpre x hx])
  rw [h1, List.filter_cons_of_pos (by simp [hc])]
  rfl

/-! ### Claim theorems (first batch) -/

/-- C1: the claim states `has_update` returns true iff the current
timestamp is later by at least one whole second, in particular false for
any backward delta.  The code computes `diff.seconds > 0` on the
normalized timedelta, so a cached timestamp one second in the *future* of
the remote one yields `true`, and a remote timestamp exactly one day later
yields `false`. -/
theorem has_update_backward_delta_returns_true :
    has_update { updated_at := some 1000000 } { updated_at := some 0 } = .ok true ∧
    has_update { updated_at := some 0 } { updated_at := some 86400000000 } = .ok false := by
  constructor <;> rfl

/-- C2: after a full `crawl_repo` pass in which cached document `x` is
absent from the remote listing, the orphaned detail file
`a/r/docs/x.json` is still present — the deletion pass targets
`a/r/x.json` instead of `a/r/docs/x.json`, so the run completes without
any removal event. -/
theorem crawl_repo_orphan_detail_file_survives :
    (crawl_repo Rc2 "a/r" sc2 []).2.2 = none ∧
    (crawl_repo Rc2 "a/r" sc2 []).1.getFile "storage/.meta/a/r/docs/x.json" =
      some (Content.record { slug := "x", updated_at := some 0 }) ∧
    (crawl_repo Rc2 "a/r" sc2 []).2.1 =
      [Event.write "storage/.meta/a/r/docs.json" (Content.list []),
       Event.write "storage/.meta/a/r/toc.yaml" (Content.text "t"),
       Event.write "storage/.meta/a/r/repo.json"
         (Content.record { slug := "r", ns := "a/r", updated_at := some 0, toc_yml := "t" })] := by
  refine ⟨rfl, rfl, rfl⟩

/-- C3 counterexample: repository `r` is unchanged (equal `updated_at`)
while its document `d` is two seconds newer remotely; the sync completes
without error but leaves the cached detail at `payload 1` — the updated
document is not re-fetched, contrary to the claim. -/
theorem updated_doc_under_unchanged_repo_not_refetched :
    (main Rc3 sc3).2.2 = none ∧
    (main Rc3 sc3).1.getFile "storage/.meta/a/r/docs/d.json" =
      some (Content.record { slug := "d", updated_at := some 1000000, payload := 1 }) := by
  exact ⟨rfl, rfl⟩

/-- C3 amended: a repository whose first cached candidate compares as
not-newer is skipped entirely by the per-repository loop — `crawl_repo`
is never invoked for it, so none of its documents can be re-fetched. -/
theorem unchanged_repo_skipped_entirely (R : Remote) (cds : List Rec) (repo : Rec)
    (rest : List Rec) (s : Store) (tr : Trace) (c : Rec)
    (h1 : first_candidate cds repo.slug = some c)
    (h2 : has_update c repo = .ok false) :
    crawlReposLoop R (some (Content.list cds)) (repo :: rest) s tr =
      crawlReposLoop R (some (Content.list cds)) rest s tr := by
  have hd : repoDecision (some (Content.list cds)) repo = .ok false := by
    simp [repoDecision, h1, h2]
  simp [crawlReposLoop, hd]

/-- C3 amended, witness at the concrete masked-update scenario. -/
theorem unchanged_repo_skipped_entirely_witness :
    crawlReposLoop Rc3 (some (Content.list [{ slug := "r", ns := "a/r", updated_at := some 1000000 }]))
        [{ slug := "r", ns := "a/r", updated_at := some 1000000 }] sc3 [] =
      crawlReposLoop Rc3 (some (Content.list [{ slug := "r", ns := "a/r", updated_at := some 1000000 }]))
        [] sc3 [] :=
  unchanged_repo_skipped_entirely Rc3 _ _ [] sc3 []
    { slug := "r", ns := "a/r", updated_at := some 1000000 } (by rfl) (by rfl)

/-- C4 counterexample: the fetch of document `d1` fails; the whole run
aborts with `RemoteRequestFailed` and the sibling `d2` is never persisted,
nor is the document list. -/
theorem doc_fetch_failure_aborts_run :
    (main Rc4 sc4).2.2 = some Err.remoteRequestFailed ∧
    (main Rc4 sc4).1.getFile "storage/.meta/a/r/docs/d2.json" = none ∧
    (main Rc4 sc4).1.getFile "storage/.meta/a/r/docs.json" = none := by
  refine ⟨rfl, rfl, rfl⟩

/-- C4 amended: when a document needs fetching and its detail fetch
fails, the document loop stops at that document: the store and trace are
left as they were and the error propagates, so no sibling after the
failing document is processed. -/
theorem doc_fetch_failure_stops_sibling_processing (R : Remote) (ns : String)
    (cached : Option Content) (doc : Rec) (rest : List Rec) (s : Store) (tr : Trace)
    (h1 : docDecision cached doc = .ok true)
    (h2 : R.docDetail ns doc.slug = .error ()) :
    crawlDocsLoop R ns cached (doc :: rest) s tr = (s, tr, some Err.remoteRequestFailed) := by
  simp [crawlDocsLoop, h1, h2]

/-- C4 amended, witness at the concrete partial-failure scenario. -/
theorem doc_fetch_failure_stops_sibling_processing_witness :
    crawlDocsLoop Rc4 "a/r" none
        [{ slug := "d1", updated_at := some 0 }, { slug := "d2", updated_at := some 0 }] sc4 [] =
      (sc4, [], some Err.remoteRequestFailed) :=
  doc_fetch_failure_stops_sibling_processing Rc4 "a/r" none
    { slug := "d1", updated_at := some 0 } [{ slug := "d2", updated_at := some 0 }] sc4 []
    (by rfl) (by rfl)

/-- C5 counterexample: the first run on `sc5` succeeds, and the second run
on its result performs one store write (the repository list file), not
zero. -/
theorem second_run_performs_writes :
    (main Rc5 sc5).2.2 = none ∧
    (main Rc5 (main Rc5 sc5).1).2.1 =
      [Event.write "storage/.meta/a/repos.json" (Content.list Rc5.repos)] := by
  exact ⟨rfl, rfl⟩

/-- C6: on a completely empty cache the run does not complete: it aborts
with `FileNotFoundError` raised by listing the missing account directory,
and the remote document detail is never persisted. -/
theorem first_run_empty_cache_raises :
    (main Rc6 sc6).2.2 = some Err.fileNotFound ∧
    (main Rc6 sc6).1.getFile "storage/.meta/a/r/docs/d.json" = none := by
  exact ⟨rfl, rfl⟩

/-- C7 counterexample: repository `r1`'s cached record has no parseable
timestamp; the sync aborts with `MalformedTimestamp` and the sibling
repository `r2` is never processed (its detail is never written),
contrary to the claim that the entity is skipped and siblings continue. -/
theorem malformed_timestamp_aborts_run :
    (main Rc7 sc7).2.2 = some Err.malformedTimestamp ∧
    (main Rc7 sc7).1.getFile "storage/.meta/a/r2/repo.json" = none := by
  exact ⟨rfl, rfl⟩

/-- C7 amended: when either timestamp of the first cached candidate pair
is absent or unparseable, `has_update` fails with `MalformedTimestamp`
and the per-repository loop aborts on the spot: the store and trace are
unchanged and no later sibling is processed. -/
theorem malformed_timestamp_error_and_abort (R : Remote) (cds : List Rec) (repo : Rec)
    (rest : List Rec) (s : Store) (tr : Trace) (c : Rec)
    (h1 : first_candidate cds repo.slug = some c)
    (h2 : c.updated_at = none ∨ repo.updated_at = none) :
    has_update c repo = .error Err.malformedTimestamp ∧
    crawlReposLoop R (some (Content.list cds)) (repo :: rest) s tr =
      (s, tr, some Err.malformedTimestamp) := by
  have hh : has_update c repo = .error Err.malformedTimestamp := by
    rcases h2 with h | h
    · simp [has_update, parse_ts, h]
    · cases hcu : c.updated_at <;> simp [has_update, parse_ts, h, hcu]
  refine ⟨hh, ?_⟩
  have hd : repoDecision (some (Content.list cds)) repo = .error Err.malformedTimestamp := by
    simp [repoDecision, h1, hh]
  simp [crawlReposLoop, hd]

/-- C7 amended, witness at the concrete malformed-timestamp scenario. -/
theorem malformed_timestamp_error_and_abort_witness :
    has_update { slug := "r1" } { slug := "r1", ns := "a/r1", updated_at := some 5000000 } =
      .error Err.malformedTimestamp ∧
    crawlReposLoop Rc7 (some (Content.list [{ slug := "r1" }]))
        [{ slug := "r1", ns := "a/r1", updated_at := some 5000000 },
         { slug := "r2", ns := "a/r2", updated_at := some 5000000 }] sc7 [] =
      (sc7, [], some Err.malformedTimestamp) :=
  malformed_timestamp_error_and_abort Rc7 [{ slug := "r1" }]
    { slug := "r1", ns := "a/r1", updated_at := some 5000000 }
    [{ slug := "r2", ns := "a/r2", updated_at := some 5000000 }] sc7 []
    { slug := "r1" } (by rfl) (Or.inl rfl)

/-- C9: reading a cached record on a path where nothing is stored never
fails: `Cache.request` returns `None`. -/
theorem cache_request_missing_path_returns_none (s : Store) (api : String)
    (cn : Option String)
    (h : s.pathExists (meta_dir ++ "/" ++ (cn.getD api) ++ ".json") = false) :
    Cache.request s api cn = .ok none := by
  unfold Cache.request
  simp [h]

/-- C9 witness: the empty store. -/
theorem cache_request_missing_path_returns_none_witness :
    Store.pathExists { files := [], dirs := [] }
      (meta_dir ++ "/" ++ ((none : Option String).getD "user") ++ ".json") = false ∧
    Cache.request { files := [], dirs := [] } "user" none = .ok none :=
  ⟨by decide, cache_request_missing_path_returns_none { files := [], dirs := [] } "user" none
    (by decide)⟩

/-- C10: the staleness decision for an entity is made solely against the
first cached record whose slug matches: any later duplicates (`post`) do
not appear in the result, at the document level and at the repository
level alike. -/
theorem staleness_decided_by_first_candidate (pre post : List Rec) (c d : Rec)
    (hpre : ∀ x ∈ pre, x.slug ≠ d.slug) (hc : c.slug = d.slug) :
    docDecision (some (Content.list (pre ++ c :: post))) d = has_update c d ∧
    repoDecision (some (Content.list (pre ++ c :: post))) d = has_update c d := by
  have h := first_candidate_append pre post c d.slug hpre hc
  constructor <;> simp [docDecision, repoDecision, h]

/-- C10 witness: a duplicate slug with a much newer timestamp sits after
the first candidate and does not influence the decision. -/
theorem staleness_decided_by_first_candidate_witness :
    (∀ x ∈ [({ slug := "z" } : Rec)], x.slug ≠ "d") ∧
    docDecision (some (Content.list ([{ slug := "z" }] ++
        { slug := "d", updated_at := some 0 } :: [{ slug := "d", updated_at := some 99000000 }])))
        { slug := "d", updated_at := some 0 } =
      has_update { slug := "d", updated_at := some 0 } { slug := "d", updated_at := some 0 } ∧
    repoDecision (some (Content.list ([{ slug := "z" }] ++
        { slug := "d", updated_at := some 0 } :: [{ slug := "d", updated_at := some 99000000 }])))
        { slug := "d", updated_at := some 0 } =
      has_update { slug := "d", updated_at := some 0 } { slug := "d", updated_at := some 0 } := by
  refine ⟨by decide, ?_, ?_⟩
  · exact (staleness_decided_by_first_candidate [{ slug := "z" }]
      [{ slug := "d", updated_at := some 99000000 }]
      { slug := "d", updated_at := some 0 } { slug := "d", updated_at := some 0 }
      (by decide) rfl).1
  · exact (staleness_decided_by_first_candidate [{ slug := "z" }]
      [{ slug := "d", updated_at := some 99000000 }]
      { slug := "d", updated_at := some 0 } { slug := "d", updated_at := some 0 }
      (by decide) rfl).2


theorem removeOldDocs_trace (ns : String) (dns : List String) (names : List String) :
    ∀ (s : Store) (tr : Trace),
    ∃ Δ, (removeOldDocs ns dns names s tr).2 = tr ++ Δ ∧
      ∀ e ∈ Δ, ∃ p, e = Event.remove p := by
  induction names with
  | nil => intro s tr; exact ⟨[], by simp [removeOldDocs], by simp⟩
  | cons n rest ih =>
    intro s tr
    by_cases hn : n ∈ dns
    · simpa [removeOldDocs, hn] using ih s tr
    · by_cases hp : s.pathExists (meta_dir ++ "/" ++ ns ++ "/" ++ n ++ ".json") = true
      · obtain ⟨Δ, h1, h2⟩ := ih (s.removeFile (meta_dir ++ "/" ++ ns ++ "/" ++ n ++ ".json"))
          (tr ++ [Event.remove (meta_dir ++ "/" ++ ns ++ "/" ++ n ++ ".json")])
        refine ⟨Event.remove (meta_dir ++ "/" ++ ns ++ "/" ++ n ++ ".json") :: Δ, ?_, ?_⟩
        · simp [removeOldDocs, hn, hp, h1]
        · intro e he
          rcases List.mem_cons.mp he with h | h
          · exact ⟨_, h⟩
          · exact h2 e h
      · obtain ⟨Δ, h1, h2⟩ := ih s tr
        refine ⟨Δ, ?_, h2⟩
        simp only [removeOldDocs, if_neg hn]
        rw [if_neg hp]
        exact h1

theorem crawlDocsLoop_trace (R : Remote) (ns : String) (cached : Option Content)
    (docs : List Rec) :
    ∀ (s : Store) (tr : Trace),
    ∃ Δ, (crawlDocsLoop R ns cached docs s tr).2.1 = tr ++ Δ ∧
      ∀ e ∈ Δ, ∃ name c,
        e = Event.write (meta_dir ++ "/" ++ (ns ++ "/docs/" ++ name ++ ".json")) c := by
  induction docs with
  | nil => intro s tr; exact ⟨[], by simp [crawlDocsLoop], by simp⟩
  | cons doc rest ih =>
    intro s tr
    rcases hd : docDecision cached doc with e | b
    · exact ⟨[], by simp [crawlDocsLoop, hd], by simp⟩
    · rcases b with _ | _
      · simpa [crawlDocsLoop, hd] using ih s tr
      · rcases hf : R.docDetail ns doc.slug with e | dd
        · exact ⟨[], by simp [crawlDocsLoop, hd, hf], by simp⟩
        · obtain ⟨Δ, h1, h2⟩ := ih
            (save_to_storage s tr (ns ++ "/docs/" ++ doc.slug ++ ".json") (Content.record dd)).1
            (save_to_storage s tr (ns ++ "/docs/" ++ doc.slug ++ ".json") (Content.record dd)).2
          refine ⟨Event.write (meta_dir ++ "/" ++ (ns ++ "/docs/" ++ doc.slug ++ ".json"))
            (Content.record dd) :: Δ, ?_, ?_⟩
          · simp only [crawlDocsLoop, hd, hf]
            rw [h1]
            simp [save_to_storage]
          · intro e he
            rcases List.mem_cons.mp he with h | h
            · exact ⟨doc.slug, Content.record dd, h⟩
            · exact h2 e h

theorem crawl_repo_trace (R : Remote) (ns : String) (s : Store) (tr : Trace)
    (s' : Store) (tr' : Trace) (e : Option Err)
    (h : crawl_repo R ns s tr = (s', tr', e)) :
    ∃ Δ₁ Δ₂, tr' = tr ++ Δ₁ ++ Δ₂ ∧
      (∀ ev ∈ Δ₁, (∃ p, ev = Event.remove p) ∨
        (∃ name c, ev = Event.write (meta_dir ++ "/" ++ (ns ++ "/docs/" ++ name ++ ".json")) c)) ∧
      (Δ₂ = [] ∨ (e = none ∧ ∃ c1 c2 c3,
        Δ₂ = [Event.write (meta_dir ++ "/" ++ (ns ++ "/docs.json")) c1,
              Event.write (meta_dir ++ "/" ++ (ns ++ "/toc.yaml")) c2,
              Event.write (meta_dir ++ "/" ++ (ns ++ "/repo.json")) c3])) := by
  rcases h1 : Cache.get_repo_detail s ns with e1 | cached
  · simp only [crawl_repo, h1, Prod.mk.injEq] at h
    exact ⟨[], [], by simp [h.2.1.symm], by simp, Or.inl rfl⟩
  · rcases h2 : repoDetailDecision cached (R.repoDetail ns) with e2 | b
    · simp only [crawl_repo, h1, h2, Prod.mk.injEq] at h
      exact ⟨[], [], by simp [h.2.1.symm], by simp, Or.inl rfl⟩
    · cases b
      · simp only [crawl_repo, h1, h2, Prod.mk.injEq] at h
        exact ⟨[], [], by simp [h.2.1.symm], by simp, Or.inl rfl⟩
      · rcases h3 : Cache.get_doc_names s ns with e3 | cachedNames
        · simp only [crawl_repo, h1, h2, h3, Prod.mk.injEq] at h
          exact ⟨[], [], by simp [h.2.1.symm], by simp, Or.inl rfl⟩
        · obtain ⟨Δrm, hrm, hrmall⟩ :=
            removeOldDocs_trace ns (List.map (fun x => x.slug) (R.docs ns)) cachedNames s tr
          rcases h4 : Cache.get_docs
              (removeOldDocs ns (List.map (fun x => x.slug) (R.docs ns)) cachedNames s tr).1 ns
            with e4 | cachedDocs
          · simp only [crawl_repo, h1, h2, h3, h4, Prod.mk.injEq] at h
            refine ⟨Δrm, [], ?_, ?_, Or.inl rfl⟩
            · rw [← h.2.1, hrm]
              simp
            · intro ev hev
              exact Or.inl (hrmall ev hev)
          · obtain ⟨Δdl, hdl, hdlall⟩ := crawlDocsLoop_trace R ns cachedDocs (R.docs ns)
              (removeOldDocs ns (List.map (fun x => x.slug) (R.docs ns)) cachedNames s tr).1
              (removeOldDocs ns (List.map (fun x => x.slug) (R.docs ns)) cachedNames s tr).2
            rcases h5 : crawlDocsLoop R ns cachedDocs (R.docs ns)
                (removeOldDocs ns (List.map (fun x => x.slug) (R.docs ns)) cachedNames s tr).1
                (removeOldDocs ns (List.map (fun x => x.slug) (R.docs ns)) cachedNames s tr).2
              with ⟨s2, tr2, e5⟩
            have htr2 : tr2 = tr ++ Δrm ++ Δdl := by
              rw [h5] at hdl
              simp only at hdl
              rw [hrm] at hdl
              rw [hdl, List.append_assoc]
            cases e5 with
            | none =>
              simp only [crawl_repo, h1, h2, h3, h4, h5, save_to_storage, Prod.mk.injEq] at h
              refine ⟨Δrm ++ Δdl,
                [Event.write (meta_dir ++ "/" ++ (ns ++ "/docs.json")) (Content.list (R.docs ns)),
                 Event.write (meta_dir ++ "/" ++ (ns ++ "/toc.yaml"))
                   (Content.text (R.repoDetail ns).toc_yml),
                 Event.write (meta_dir ++ "/" ++ (ns ++ "/repo.json"))
                   (Content.record (R.repoDetail ns))],
                ?_, ?_, ?_⟩
              · rw [← h.2.1, htr2]
                simp
              · intro ev hev
                rcases List.mem_append.mp hev with hv | hv
                · exact Or.inl (hrmall ev hv)
                · exact Or.inr (hdlall ev hv)
              · exact Or.inr ⟨h.2.2.symm, _, _, _, rfl⟩
            | some e5v =>
              simp only [crawl_repo, h1, h2, h3, h4, h5, Prod.mk.injEq] at h
              refine ⟨Δrm ++ Δdl, [], ?_, ?_, Or.inl rfl⟩
              · rw [← h.2.1, htr2]
                simp
              · intro ev hev
                rcases List.mem_append.mp hev with hv | hv
                · exact Or.inl (hrmall ev hv)
                · exact Or.inr (hdlall ev hv)

theorem main_trace_success (R : Remote) (s0 s' : Store) (tr' : Trace)
    (h : main R s0 = (s', tr', none)) :
    ∃ Δ₀, tr' = Δ₀ ++
      [Event.write (meta_dir ++ "/" ++ (R.user.login ++ "/repos.json")) (Content.list R.repos)] := by
  simp only [main] at h
  rcases h1 : Cache.get_user (s0.makedirs meta_dir) with e1 | cu
  · simp only [h1] at h
    simp at h
  · simp only [h1] at h
    rcases h2 : userUpdated cu R.user with e2 | upd
    · simp only [h2] at h
      simp at h
    · simp only [h2] at h
      rcases h3 : Cache.get_local_repo_names
          (if upd = true then save_to_storage (s0.makedirs meta_dir) [] "user.json"
            (Content.record R.user) else (s0.makedirs meta_dir, [])).1 R.user.login with e3 | lns
      · simp only [h3] at h
        simp at h
      · simp only [h3] at h
        rcases h4 : Cache.get_repos
            (removeOldRepos R.user.login (R.repos.map (fun x => x.slug)) lns
              (if upd = true then save_to_storage (s0.makedirs meta_dir) [] "user.json"
                (Content.record R.user) else (s0.makedirs meta_dir, [])).1
              (if upd = true then save_to_storage (s0.makedirs meta_dir) [] "user.json"
                (Content.record R.user) else (s0.makedirs meta_dir, [])).2).1 R.user.login
          with e4 | crs
        · simp only [h4] at h
          simp at h
        · simp only [h4] at h
          rcases h5 : crawlReposLoop R crs R.repos
              (removeOldRepos R.user.login (R.repos.map (fun x => x.slug)) lns
                (if upd = true then save_to_storage (s0.makedirs meta_dir) [] "user.json"
                  (Content.record R.user) else (s0.makedirs meta_dir, [])).1
                (if upd = true then save_to_storage (s0.makedirs meta_dir) [] "user.json"
                  (Content.record R.user) else (s0.makedirs meta_dir, [])).2).1
              (removeOldRepos R.user.login (R.repos.map (fun x => x.slug)) lns
                (if upd = true then save_to_storage (s0.makedirs meta_dir) [] "user.json"
                  (Content.record R.user) else (s0.makedirs meta_dir, [])).1
                (if upd = true then save_to_storage (s0.makedirs meta_dir) [] "user.json"
                  (Content.record R.user) else (s0.makedirs meta_dir, [])).2).2
            with ⟨s3, tr3, e5⟩
          simp only [h5] at h
          cases e5 with
          | none =>
            simp only [save_to_storage, Prod.mk.injEq] at h
            exact ⟨tr3, h.2.1.symm⟩
          | some e5v =>
            simp at h


/-- C8 -/
theorem list_files_written_after_details :
    (∀ (R : Remote) (ns : String) (s : Store) (tr : Trace) (s' : Store) (tr' : Trace)
      (e : Option Err), crawl_repo R ns s tr = (s', tr', e) →
      ∃ Δ₁ Δ₂, tr' = tr ++ Δ₁ ++ Δ₂ ∧
        (∀ ev ∈ Δ₁, (∃ p, ev = Event.remove p) ∨
          (∃ name c, ev = Event.write (meta_dir ++ "/" ++ (ns ++ "/docs/" ++ name ++ ".json")) c)) ∧
        (Δ₂ = [] ∨ (e = none ∧ ∃ c1 c2 c3,
          Δ₂ = [Event.write (meta_dir ++ "/" ++ (ns ++ "/docs.json")) c1,
                Event.write (meta_dir ++ "/" ++ (ns ++ "/toc.yaml")) c2,
                Event.write (meta_dir ++ "/" ++ (ns ++ "/repo.json")) c3]))) ∧
    (∀ (R : Remote) (s0 s' : Store) (tr' : Trace), main R s0 = (s', tr', none) →
      ∃ Δ₀, tr' = Δ₀ ++
        [Event.write (meta_dir ++ "/" ++ (R.user.login ++ "/repos.json")) (Content.list R.repos)]) :=
  ⟨fun R ns s tr s' tr' e h => crawl_repo_trace R ns s tr s' tr' e h,
   fun R s0 s' tr' h => main_trace_success R s0 s' tr' h⟩

/-- C8 witness -/
theorem list_files_written_after_details_witness :
    (∃ Δ₁ Δ₂, (crawl_repo Rc8 "a/r" sc8 []).2.1 = [] ++ Δ₁ ++ Δ₂ ∧
      (∀ ev ∈ Δ₁, (∃ p, ev = Event.remove p) ∨
        (∃ name c, ev = Event.write (meta_dir ++ "/" ++ ("a/r" ++ "/docs/" ++ name ++ ".json")) c)) ∧
      (Δ₂ = [] ∨ ((crawl_repo Rc8 "a/r" sc8 []).2.2 = none ∧ ∃ c1 c2 c3,
        Δ₂ = [Event.write (meta_dir ++ "/" ++ ("a/r" ++ "/docs.json")) c1,
              Event.write (meta_dir ++ "/" ++ ("a/r" ++ "/toc.yaml")) c2,
              Event.write (meta_dir ++ "/" ++ ("a/r" ++ "/repo.json")) c3]))) ∧
    (∃ Δ₀, (main Rc8 sc8).2.1 = Δ₀ ++
      [Event.write (meta_dir ++ "/" ++ (Rc8.user.login ++ "/repos.json")) (Content.list Rc8.repos)]) :=
  ⟨list_files_written_after_details.1 Rc8 "a/r" sc8 []
      (crawl_repo Rc8 "a/r" sc8 []).1 (crawl_repo Rc8 "a/r" sc8 []).2.1
      (crawl_repo Rc8 "a/r" sc8 []).2.2 rfl,
   list_files_written_after_details.2 Rc8 sc8 (main Rc8 sc8).1 (main Rc8 sc8).2.1 rfl⟩

end Crawl


namespace Crawl

theorem strPre_iff (p q : String) : strPre p q = true ↔ p.data <+: q.data := by
  unfold strPre
  exact List.isPrefixOf_iff_prefix

theorem str_eq_iff {a b : String} : a = b ↔ a.data = b.data :=
  ⟨fun h => h ▸ rfl, String.ext⟩

theorem data_slash_append (a b : String) : (a ++ "/" ++ b).data = a.data ++ '/' :: b.data := by
  simp [String.data_append]

theorem not_eq_and_pre_of_shorter (p q : String) (h : q.data.length < p.data.length) :
    p ≠ q ∧ strPre (p ++ "/") q = false := by
  constructor
  · intro he
    rw [he] at h
    exact lt_irrefl _ h
  · by_contra hc
    have hb : strPre (p ++ "/") q = true := by
      cases hx : strPre (p ++ "/") q
      · exact absurd hx hc
      · rfl
    have hp := (strPre_iff _ _).mp hb
    have hl := hp.length_le
    rw [String.data_append, List.length_append] at hl
    have h1 : ("/" : String).data.length = 1 := rfl
    rw [h1] at hl
    omega

theorem takeWhile_append_of {p : Char → Bool} (l₁ : List Char) (x : Char) (l₂ : List Char)
    (h1 : ∀ a ∈ l₁, p a = true) (hx : p x = false) :
    (l₁ ++ x :: l₂).takeWhile p = l₁ := by
  induction l₁ with
  | nil => simp [List.takeWhile_cons, hx]
  | cons a rest ih =>
    have ha : p a = true := h1 a (by simp)
    simp only [List.cons_append, List.takeWhile_cons, ha, if_true]
    rw [ih (fun b hb => h1 b (by simp [hb]))]

theorem takeWhile_all {p : Char → Bool} (l : List Char) (h1 : ∀ a ∈ l, p a = true) :
    l.takeWhile p = l := by
  induction l with
  | nil => rfl
  | cons a rest ih =>
    simp only [List.takeWhile_cons, h1 a (by simp), if_true]
    rw [ih (fun b hb => h1 b (by simp [hb]))]

theorem dropWhile_append_of {p : Char → Bool} (l₁ l₂ : List Char)
    (h1 : ∀ a ∈ l₁, p a = true) :
    (l₁ ++ l₂).dropWhile p = l₂.dropWhile p := by
  induction l₁ with
  | nil => rfl
  | cons a rest ih =>
    simp only [List.cons_append, List.dropWhile_cons, h1 a (by simp), if_true]
    rw [ih (fun b hb => h1 b (by simp [hb]))]

theorem dirname_append (a b : String) (hb : '/' ∉ b.data) : dirname (a ++ "/" ++ b) = a := by
  apply String.ext
  unfold dirname
  simp only
  rw [data_slash_append, List.reverse_append, List.reverse_cons]
  rw [List.append_assoc]
  rw [dropWhile_append_of b.data.reverse _
    (fun c hc => by
      have : c ∈ b.data := List.mem_reverse.mp hc
      simp only [bne_iff_ne, ne_eq]
      intro hcc
      exact hb (hcc ▸ this))]
  simp [List.dropWhile_cons]

theorem nextSeg_deep (pre x : String) (t : List Char) (q : String) (hx : '/' ∉ x.data)
    (hq : q.data = pre.data ++ (x.data ++ '/' :: t)) : nextSeg pre q = x := by
  apply String.ext
  unfold nextSeg
  simp only [hq]
  rw [List.drop_left]
  exact takeWhile_append_of x.data '/' t
    (fun a ha => by simp only [bne_iff_ne, ne_eq]; intro hc; exact hx (hc ▸ ha))
    (by simp)

theorem nextSeg_flat (pre x : String) (q : String) (hx : '/' ∉ x.data)
    (hq : q.data = pre.data ++ x.data) : nextSeg pre q = x := by
  apply String.ext
  unfold nextSeg
  simp only [hq]
  rw [List.drop_left]
  exact takeWhile_all x.data
    (fun a ha => by simp only [bne_iff_ne, ne_eq]; intro hc; exact hx (hc ▸ ha))

theorem str_app_cancel {m x y : String} (h : m ++ x = m ++ y) : x = y := by
  apply String.ext
  have := congrArg String.data h
  rw [String.data_append, String.data_append] at this
  exact List.append_cancel_left this

theorem strPre_no_slash_false (x y : String) (hx : '/' ∈ x.data) (hy : '/' ∉ y.data) :
    strPre x y = false := by
  by_contra hc
  have hb : strPre x y = true := by
    cases hz : strPre x y
    · exact absurd hz hc
    · rfl
  exact hy ((((strPre_iff _ _).mp hb).subset) hx)

theorem lookup_map_write (p : Path) (c : Content) (l : List (Path × Content))
    (h : l.any (fun f => f.1 == p) = true) :
    List.lookup p (l.map (fun f => if f.1 = p then (p, c) else f)) = some c := by
  induction l with
  | nil => simp at h
  | cons f rest ih =>
    obtain ⟨k, v⟩ := f
    by_cases hf : k = p
    · simp [hf, List.lookup_cons]
    · rw [List.any_cons] at h
      have hk : (k == p) = false := by simp [hf]
      rw [hk, Bool.false_or] at h
      have hpk : (p == k) = false := by
        simp only [beq_eq_false_iff_ne, ne_eq]
        exact fun hc => hf hc.symm
      simp only [List.map_cons, if_neg hf, List.lookup_cons, hpk]
      exact ih h

theorem lookup_append_write (p : Path) (c : Content) (l : List (Path × Content))
    (h : l.any (fun f => f.1 == p) = false) :
    List.lookup p (l ++ [(p, c)]) = some c := by
  induction l with
  | nil => simp [List.lookup_cons]
  | cons f rest ih =>
    obtain ⟨k, v⟩ := f
    rw [List.any_cons, Bool.or_eq_false_iff] at h
    have hpk : (p == k) = false := by
      have := h.1
      simp at this ⊢
      exact fun hc => this hc.symm
    simp only [List.cons_append, List.lookup_cons, hpk]
    exact ih h.2

theorem getFile_writeFile_self (s : Store) (p : Path) (c : Content) :
    (s.writeFile p c).getFile p = some c := by
  unfold Store.writeFile Store.getFile
  by_cases h : s.files.any (fun f => f.1 == p) = true
  · simp only [h, if_true]
    exact lookup_map_write p c s.files h
  · rw [Bool.not_eq_true] at h
    simp only [h, Bool.false_eq_true, if_false]
    exact lookup_append_write p c s.files h

theorem getFile_writeFile_ne (s : Store) (p q : Path) (c : Content) (hq : q ≠ p) :
    (s.writeFile p c).getFile q = s.getFile q := by
  have hqp : (q == p) = false := by simp [hq]
  unfold Store.writeFile Store.getFile
  split
  · simp only
    induction s.files with
    | nil => rfl
    | cons f rest ih =>
      obtain ⟨k, v⟩ := f
      by_cases hf : k = p
      · subst hf
        simp only [List.map_cons, eq_self_iff_true, if_true, List.lookup_cons, hqp]
        exact ih
      · simp only [List.map_cons, if_neg hf, List.lookup_cons]
        cases hx : (q == k)
        · exact ih
        · rfl
  · simp only
    induction s.files with
    | nil => simp [List.lookup_cons, hqp]
    | cons f rest ih =>
      obtain ⟨k, v⟩ := f
      simp only [List.cons_append, List.lookup_cons]
      cases hx : (q == k)
      · exact ih
      · rfl

theorem getFile_removeFile_ne (s : Store) (p q : Path) (hq : q ≠ p) :
    (s.removeFile p).getFile q = s.getFile q := by
  unfold Store.removeFile Store.getFile
  simp only
  induction s.files with
  | nil => rfl
  | cons f rest ih =>
    obtain ⟨k, v⟩ := f
    by_cases hf : k = p
    · have hb : (k == p) = true := by simp [hf]
      simp only [List.filter_cons, hb, Bool.not_true, if_false]
      have hqf : (q == k) = false := by
        simp only [beq_eq_false_iff_ne, ne_eq]
        intro hc
        exact hq (hc.trans hf)
      simp only [List.lookup_cons, hqf]
      exact ih
    · have hb : (k == p) = false := by simp [hf]
      simp only [List.filter_cons, hb, Bool.not_false, if_true, List.lookup_cons]
      cases hx : (q == k)
      · exact ih
      · rfl

theorem getFile_rmtree_out (s : Store) (p q : Path) (hq : q ≠ p)
    (hq2 : strPre (p ++ "/") q = false) :
    (s.rmtree p).getFile q = s.getFile q := by
  unfold Store.rmtree Store.getFile
  simp only
  induction s.files with
  | nil => rfl
  | cons f rest ih =>
    obtain ⟨k, v⟩ := f
    by_cases hf : (k == p || strPre (p ++ "/") k) = true
    · simp only [List.filter_cons, hf, Bool.not_true, if_false]
      have hqf : (q == k) = false := by
        simp only [beq_eq_false_iff_ne, ne_eq]
        intro hc
        subst hc
        rcases Bool.or_eq_true_iff.mp hf with hcase | hcase
        · exact hq (by simpa using hcase)
        · rw [hcase] at hq2
          exact Bool.true_eq_false.mp hq2
      simp only [List.lookup_cons, hqf]
      exact ih
    · rw [Bool.not_eq_true] at hf
      simp only [List.filter_cons, hf, Bool.not_false, if_true, List.lookup_cons]
      cases hx : (q == k)
      · exact ih
      · rfl

theorem makedirs_files (s : Store) (p : Path) : (s.makedirs p).files = s.files := by
  unfold Store.makedirs
  split <;> rfl

theorem getFile_makedirs (s : Store) (p q : Path) :
    (s.makedirs p).getFile q = s.getFile q := by
  unfold Store.getFile
  rw [makedirs_files]

theorem writeFile_dirs (s : Store) (p : Path) (c : Content) :
    (s.writeFile p c).dirs = s.dirs := by
  unfold Store.writeFile
  split <;> rfl

theorem removeFile_dirs (s : Store) (p : Path) : (s.removeFile p).dirs = s.dirs := rfl

theorem makedirs_dirs_mem (s : Store) (p d : Path) (h : d ∈ s.dirs) :
    d ∈ (s.makedirs p).dirs := by
  unfold Store.makedirs
  split
  · exact h
  · simp only
    exact List.mem_append_left _ h

theorem makedirs_mem_self (s : Store) (p : Path) : p ∈ (s.makedirs p).dirs := by
  unfold Store.makedirs
  split
  · rename_i h
    exact List.elem_iff.mp h
  · simp

theorem makedirs_of_mem (s : Store) (p : Path) (h : p ∈ s.dirs) : s.makedirs p = s := by
  unfold Store.makedirs
  rw [if_pos (List.elem_iff.mpr h)]

theorem writeFile_idem (s : Store) (p : Path) (c : Content) :
    (s.writeFile p c).writeFile p c = s.writeFile p c := by
  unfold Store.writeFile
  by_cases h : s.files.any (fun f => f.1 == p) = true
  · simp only [h, if_true]
    have hany : (s.files.map (fun f => if f.1 = p then (p, c) else f)).any
        (fun f => f.1 == p) = true := by
      rcases List.any_eq_true.mp h with ⟨f, hf, hfp⟩
      refine List.any_eq_true.mpr ⟨(p, c), List.mem_map.mpr ⟨f, hf, ?_⟩, by simp⟩
      have : f.1 = p := by simpa using hfp
      simp [this]
    simp only [hany, if_true]
    congr 1
    rw [List.map_map]
    apply List.map_congr_left
    intro f _
    have hca : ((fun f => if f.1 = p then (p, c) else f) ∘ fun f => if f.1 = p then (p, c) else f) f =
        (if ((if f.1 = p then (p, c) else f) : Path × Content).1 = p then (p, c)
          else if f.1 = p then (p, c) else f) := rfl
    rw [hca]
    by_cases hf : f.1 = p
    · rw [if_pos hf]
      simp
    · rw [if_neg hf, if_neg hf]
  · rw [Bool.not_eq_true] at h
    simp only [h, Bool.false_eq_true, if_false]
    have hany : (s.files ++ [(p, c)]).any (fun f => f.1 == p) = true := by
      apply List.any_eq_true.mpr
      exact ⟨(p, c), by simp⟩
    simp only [hany, if_true]
    congr 1
    rw [List.map_append]
    have hmap : s.files.map (fun f => if f.1 = p then (p, c) else f) = s.files.map id := by
      apply List.map_congr_left
      intro f hf
      have hall := List.any_eq_false.mp h
      have hfp : ¬(f.1 = p) := by
        intro hc
        exact hall f hf (by rw [hc]; exact beq_self_eq_true p)
      simp [hfp]
    rw [hmap, List.map_id]
    simp

theorem mem_writeFile_files (s : Store) (p : Path) (c : Content) (f : Path × Content)
    (h : f ∈ (s.writeFile p c).files) : f = (p, c) ∨ f ∈ s.files := by
  unfold Store.writeFile at h
  split at h
  · rcases List.mem_map.mp h with ⟨g, hg, hgf⟩
    by_cases hp : g.1 = p
    · simp only [hp, if_pos rfl] at hgf
      exact Or.inl hgf.symm
    · simp only [hp, if_false] at hgf
      exact Or.inr (hgf ▸ hg)
  · rcases List.mem_append.mp h with hg | hg
    · exact Or.inr hg
    · simp at hg
      exact Or.inl (by rw [hg])

theorem removeOldRepos_noop (login : String) (rns : List String) (names : List String)
    (s : Store) (tr : Trace) (h : ∀ n ∈ names, n ∈ rns) :
    removeOldRepos login rns names s tr = (s, tr) := by
  induction names with
  | nil => rfl
  | cons n rest ih =>
    rw [removeOldRepos, if_pos (h n (by simp))]
    exact ih (fun m hm => h m (by simp [hm]))

theorem removeOldRepos_files_sub (login : String) (rns : List String) (names : List String) :
    ∀ (s : Store) (tr : Trace) (f : Path × Content),
    f ∈ (removeOldRepos login rns names s tr).1.files → f ∈ s.files := by
  induction names with
  | nil => intro s tr f hf; exact hf
  | cons n rest ih =>
    intro s tr f hf
    rw [removeOldRepos] at hf
    split at hf
    · exact ih s tr f hf
    · have := ih _ _ f hf
      unfold Store.rmtree at this
      exact List.mem_filter.mp this |>.1

theorem removeOldRepos_dirs_sub (login : String) (rns : List String) (names : List String) :
    ∀ (s : Store) (tr : Trace) (d : Path),
    d ∈ (removeOldRepos login rns names s tr).1.dirs → d ∈ s.dirs := by
  induction names with
  | nil => intro s tr d hd; exact hd
  | cons n rest ih =>
    intro s tr d hd
    rw [removeOldRepos] at hd
    split at hd
    · exact ih s tr d hd
    · have := ih _ _ d hd
      unfold Store.rmtree at this
      exact List.mem_filter.mp this |>.1

theorem removeOldRepos_removes_files (login : String) (rns : List String)
    (names : List String) :
    ∀ (s : Store) (tr : Trace) (n : String) (f : Path × Content),
    n ∈ names → n ∉ rns →
    f ∈ (removeOldRepos login rns names s tr).1.files →
    ¬(f.1 = meta_dir ++ "/" ++ login ++ "/" ++ n ∨
      strPre ((meta_dir ++ "/" ++ login ++ "/" ++ n) ++ "/") f.1 = true) := by
  induction names with
  | nil => intro s tr n f hn; simp at hn
  | cons m rest ih =>
    intro s tr n f hn hnr hf
    rw [removeOldRepos] at hf
    rcases List.mem_cons.mp hn with hcase | hcase
    · subst hcase
      rw [if_neg hnr] at hf
      have hmem := removeOldRepos_files_sub login rns rest _ _ f hf
      unfold Store.rmtree at hmem
      have := List.mem_filter.mp hmem |>.2
      intro hc
      rcases hc with hc | hc
      · rw [Bool.not_eq_true', Bool.or_eq_false_iff] at this
        have := this.1
        rw [beq_eq_false_iff_ne] at this
        exact this hc
      · rw [Bool.not_eq_true', Bool.or_eq_false_iff] at this
        have h2 := this.2
        rw [hc] at h2
        exact Bool.noConfusion h2
    · split at hf
      · exact ih s tr n f hcase hnr hf
      · exact ih _ _ n f hcase hnr hf

theorem removeOldRepos_removes_dirs (login : String) (rns : List String)
    (names : List String) :
    ∀ (s : Store) (tr : Trace) (n : String) (d : Path),
    n ∈ names → n ∉ rns →
    d ∈ (removeOldRepos login rns names s tr).1.dirs →
    ¬(d = meta_dir ++ "/" ++ login ++ "/" ++ n ∨
      strPre ((meta_dir ++ "/" ++ login ++ "/" ++ n) ++ "/") d = true) := by
  induction names with
  | nil => intro s tr n d hn; simp at hn
  | cons m rest ih =>
    intro s tr n d hn hnr hd
    rw [removeOldRepos] at hd
    rcases List.mem_cons.mp hn with hcase | hcase
    · subst hcase
      rw [if_neg hnr] at hd
      have hmem := removeOldRepos_dirs_sub login rns rest _ _ d hd
      unfold Store.rmtree at hmem
      have := List.mem_filter.mp hmem |>.2
      intro hc
      rw [Bool.not_eq_true', Bool.or_eq_false_iff] at this
      rcases hc with hc | hc
      · rw [beq_eq_false_iff_ne] at this
        exact this.1 hc
      · have h2 := this.2
        rw [hc] at h2
        exact Bool.noConfusion h2
    · split at hd
      · exact ih s tr n d hcase hnr hd
      · exact ih _ _ n d hcase hnr hd

theorem removeOldRepos_dirs_keep (login : String) (rns : List String) (names : List String) :
    ∀ (s : Store) (tr : Trace) (d : Path), d ∈ s.dirs →
    (∀ n : String, d ≠ meta_dir ++ "/" ++ login ++ "/" ++ n ∧
      strPre ((meta_dir ++ "/" ++ login ++ "/" ++ n) ++ "/") d = false) →
    d ∈ (removeOldRepos login rns names s tr).1.dirs := by
  induction names with
  | nil => intro s tr d hd _; exact hd
  | cons n rest ih =>
    intro s tr d hd hkeep
    rw [removeOldRepos]
    split
    · exact ih s tr d hd hkeep
    · apply ih
      · unfold Store.rmtree
        simp only
        apply List.mem_filter.mpr
        refine ⟨hd, ?_⟩
        rw [Bool.not_eq_true', Bool.or_eq_false_iff]
        constructor
        · rw [beq_eq_false_iff_ne]
          exact (hkeep n).1
        · exact (hkeep n).2
      · exact hkeep

theorem removeOldRepos_getFile (login : String) (rns : List String) (names : List String) :
    ∀ (s : Store) (tr : Trace) (q : Path),
    (∀ n : String, q ≠ meta_dir ++ "/" ++ login ++ "/" ++ n ∧
      strPre ((meta_dir ++ "/" ++ login ++ "/" ++ n) ++ "/") q = false) →
    (removeOldRepos login rns names s tr).1.getFile q = s.getFile q := by
  induction names with
  | nil => intro s tr q _; rfl
  | cons n rest ih =>
    intro s tr q hq
    rw [removeOldRepos]
    split
    · exact ih s tr q hq
    · rw [ih _ _ q hq]
      exact getFile_rmtree_out s _ q (hq n).1 (hq n).2

theorem mem_insertStr (x y : String) (l : List String) :
    x ∈ insertStr y l ↔ x = y ∨ x ∈ l := by
  induction l with
  | nil =>
    rw [show insertStr y [] = [y] from rfl]
    simp
  | cons a rest ih =>
    rw [insertStr]
    split
    · simp
    · rw [List.mem_cons, ih, List.mem_cons]
      tauto

theorem mem_sortStr (x : String) (l : List String) : x ∈ sortStr l ↔ x ∈ l := by
  induction l with
  | nil => simp [sortStr]
  | cons a rest ih =>
    rw [sortStr, mem_insertStr, ih, List.mem_cons]

theorem mem_dedupStr (x : String) (l : List String) : x ∈ dedupStr l ↔ x ∈ l := by
  induction l with
  | nil => simp [dedupStr]
  | cons a rest ih =>
    simp only [dedupStr]
    split
    · rw [ih, List.mem_cons]
      rename_i hcon
      constructor
      · exact fun h => Or.inr h
      · rintro (h | h)
        · subst h
          rw [← ih]
          exact List.elem_iff.mp hcon
        · exact h
    · rw [List.mem_cons, ih, List.mem_cons]

theorem mem_listdirNames (s : Store) (p : Path) (n : String) :
    n ∈ s.listdirNames p ↔
      ∃ q ∈ s.files.map (fun f => f.1) ++ s.dirs,
        strPre (p ++ "/") q = true ∧ n = nextSeg (p ++ "/") q := by
  unfold Store.listdirNames
  rw [mem_sortStr, mem_dedupStr, List.mem_filterMap]
  constructor
  · rintro ⟨q, hq, hqn⟩
    split at hqn
    · rename_i hpre
      exact ⟨q, hq, hpre, (Option.some_inj.mp hqn).symm⟩
    · exact absurd hqn (by simp)
  · rintro ⟨q, hq, hpre, hn⟩
    exact ⟨q, hq, by rw [if_pos hpre, hn]⟩

theorem isDir_iff (s : Store) (p : Path) :
    s.isDir p = true ↔
      (∃ d ∈ s.dirs, d = p ∨ strPre (p ++ "/") d = true) ∨
      ∃ f ∈ s.files, strPre (p ++ "/") f.1 = true := by
  unfold Store.isDir
  rw [Bool.or_eq_true, List.any_eq_true, List.any_eq_true]
  constructor
  · rintro (⟨d, hd, hdp⟩ | ⟨f, hf, hfp⟩)
    · rw [Bool.or_eq_true] at hdp
      rcases hdp with h | h
      · exact Or.inl ⟨d, hd, Or.inl (by simpa using h)⟩
      · exact Or.inl ⟨d, hd, Or.inr h⟩
    · exact Or.inr ⟨f, hf, hfp⟩
  · rintro (⟨d, hd, hdp⟩ | ⟨f, hf, hfp⟩)
    · refine Or.inl ⟨d, hd, ?_⟩
      rw [Bool.or_eq_true]
      rcases hdp with h | h
      · exact Or.inl (by simp [h])
      · exact Or.inr h
    · exact Or.inr ⟨f, hf, hfp⟩

theorem nextSeg_no_slash (pre q : String) : '/' ∉ (nextSeg pre q).data := by
  unfold nextSeg
  intro hmem
  have := List.mem_takeWhile_imp hmem
  simp at this

theorem dropWhile_cons_prop {p : Char → Bool} {l : List Char} {c : Char} {cs : List Char}
    (h : l.dropWhile p = c :: cs) : p c = false := by
  induction l with
  | nil => simp at h
  | cons a rest ih =>
    rw [List.dropWhile_cons] at h
    split at h
    · exact ih h
    · rename_i hpa
      injection h with h1 _
      subst h1
      simpa using hpa

theorem strPre_loginPre_decomp (login : String) (q : Path)
    (h : strPre (loginPre login) q = true) :
    q = loginPre login ++ nextSeg (loginPre login) q ∨
    ∃ t : List Char, q.data = (loginPre login).data ++
      ((nextSeg (loginPre login) q).data ++ '/' :: t) := by
  obtain ⟨t, ht⟩ := (strPre_iff _ _).mp h
  have hseg : (nextSeg (loginPre login) q).data = t.takeWhile (fun c => c != '/') := by
    show (q.data.drop (loginPre login).data.length).takeWhile _ = _
    rw [← ht, List.drop_left]
  have hsplit := List.takeWhile_append_dropWhile (fun c => c != '/') t
  rcases hdw : t.dropWhile (fun c => c != '/') with _ | ⟨c, rest⟩
  · left
    rw [hdw, List.append_nil] at hsplit
    rw [str_eq_iff, String.data_append, hseg, hsplit]
    exact ht.symm
  · right
    have hc : c = '/' := by simpa using dropWhile_cons_prop hdw
    refine ⟨rest, ?_⟩
    rw [hseg, ← ht]
    rw [hdw, hc] at hsplit
    rw [hsplit]

theorem INV_removeFile (login : String) (rns : List String) (s : Store) (p : Path)
    (h : INV login rns s) : INV login rns (s.removeFile p) := by
  obtain ⟨hf, hd⟩ := h
  constructor
  · intro f hfm
    unfold Store.removeFile at hfm
    exact hf f (List.mem_filter.mp hfm).1
  · intro d hdm
    rw [removeFile_dirs] at hdm
    exact hd d hdm

theorem INV_writeFile (login : String) (rns : List String) (s : Store) (p : Path)
    (c : Content)
    (hp : strPre (loginPre login) p = false ∨ nextSeg (loginPre login) p ∈ rns ∨
      p = loginPre login ++ nextSeg (loginPre login) p)
    (h : INV login rns s) : INV login rns (s.writeFile p c) := by
  obtain ⟨hf, hd⟩ := h
  constructor
  · intro f hfm hpre hseg
    rcases mem_writeFile_files s p c f hfm with hcase | hcase
    · subst hcase
      simp only at hpre hseg ⊢
      rcases hp with hp | hp | hp
      · rw [hpre] at hp
        exact Bool.noConfusion hp
      · exact absurd hp hseg
      · exact hp
    · exact hf f hcase hpre hseg
  · intro d hdm
    rw [writeFile_dirs] at hdm
    exact hd d hdm

theorem INV_makedirs (login : String) (rns : List String) (s : Store) (p : Path)
    (hp : strPre (loginPre login) p = false ∨ nextSeg (loginPre login) p ∈ rns)
    (h : INV login rns s) : INV login rns (s.makedirs p) := by
  obtain ⟨hf, hd⟩ := h
  constructor
  · intro f hfm
    rw [makedirs_files] at hfm
    exact hf f hfm
  · intro d hdm hpre
    unfold Store.makedirs at hdm
    split at hdm
    · exact hd d hdm hpre
    · simp only at hdm
      rcases List.mem_append.mp hdm with hcase | hcase
      · exact hd d hcase hpre
      · simp at hcase
        subst hcase
        rcases hp with hp | hp
        · rw [hpre] at hp
          exact Bool.noConfusion hp
        · exact hp

theorem dirname_decomp (q : String) (h : '/' ∈ q.data) :
    ∃ t : List Char, q.data = (dirname q).data ++ '/' :: t ∧ '/' ∉ t := by
  have hr : '/' ∈ q.data.reverse := List.mem_reverse.mpr h
  have hne : q.data.reverse.dropWhile (fun c => c != '/') ≠ [] := by
    intro hnil
    rw [List.dropWhile_eq_nil_iff] at hnil
    have := hnil '/' hr
    simp at this
  rcases hdw : q.data.reverse.dropWhile (fun c => c != '/') with _ | ⟨c, rest⟩
  · exact absurd hdw hne
  · have hc : c = '/' := by simpa using dropWhile_cons_prop hdw
    subst hc
    refine ⟨(q.data.reverse.takeWhile (fun c => c != '/')).reverse, ?_, ?_⟩
    · have hsplit := List.takeWhile_append_dropWhile (fun c => c != '/') q.data.reverse
      rw [hdw] at hsplit
      have hdir : (dirname q).data = rest.reverse := by
        unfold dirname
        rw [hdw]
        simp
      rw [hdir]
      conv_lhs => rw [← List.reverse_reverse q.data, ← hsplit]
      rw [List.reverse_append, List.reverse_cons]
      simp
    · intro hmem
      have := List.mem_takeWhile_imp (List.mem_reverse.mp hmem)
      simp at this

theorem seg_of_under (login slug : String) (hslug : '/' ∉ slug.data) (dv : String)
    (u : List Char) (hdv : dv.data = (loginPre login).data ++ u) (w t : List Char)
    (heq : u ++ '/' :: t = slug.data ++ '/' :: w) :
    nextSeg (loginPre login) dv = slug := by
  rcases List.append_eq_append_iff.mp heq with ⟨a, ha1, ha2⟩ | ⟨a, ha1, ha2⟩
  · rcases a with _ | ⟨c, cs⟩
    · have hu : u = slug.data := by simpa using ha1.symm
      exact nextSeg_flat (loginPre login) slug dv hslug (by rw [hdv, hu])
    · exfalso
      rw [List.cons_append] at ha2
      injection ha2 with h1 h2
      apply hslug
      rw [ha1, ← h1]
      exact List.mem_append.mpr (Or.inr (by simp))
  · rcases a with _ | ⟨c, cs⟩
    · have hu : u = slug.data := by simpa using ha1
      exact nextSeg_flat (loginPre login) slug dv hslug (by rw [hdv, hu])
    · rw [List.cons_append] at ha2
      injection ha2 with h1 h2
      apply nextSeg_deep (loginPre login) slug cs dv hslug
      rw [hdv, ha1, ← h1]

theorem data_slash_lit : ("/" : String).data = ['/'] := rfl

theorem root_ne (fname : String) (hf : '/' ∉ fname.data) (k : String) (m : List Char)
    (hm : '/' ∈ m) (hk : k.data = (meta_dir ++ "/").data ++ m) :
    meta_dir ++ "/" ++ fname ≠ k := by
  intro he
  have hd : (meta_dir ++ "/" ++ fname).data = k.data := congrArg String.data he
  rw [hk, String.data_append] at hd
  have hc := List.append_cancel_left hd
  exact hf (hc ▸ hm)

theorem save_getFile_root (fname : String) (hf : '/' ∉ fname.data) (s : Store) (tr : Trace)
    (fp : String) (c : Content) (m : List Char) (hm : '/' ∈ m) (hfp : fp.data = m) :
    (save_to_storage s tr fp c).1.getFile (meta_dir ++ "/" ++ fname) =
      s.getFile (meta_dir ++ "/" ++ fname) := by
  unfold save_to_storage
  simp only
  rw [getFile_writeFile_ne _ _ _ _
    (root_ne fname hf _ m hm (by rw [String.data_append, hfp]))]
  exact getFile_makedirs _ _ _

theorem save_dirs_mem (s : Store) (tr : Trace) (fp : String) (c : Content) (d : Path)
    (h : d ∈ s.dirs) : d ∈ (save_to_storage s tr fp c).1.dirs := by
  unfold save_to_storage
  simp only
  rw [writeFile_dirs]
  exact makedirs_dirs_mem _ _ _ h

theorem removeOldDocs_getFile_root (ns : String) (dns : List String) (fname : String)
    (hf : '/' ∉ fname.data) (names : List String) :
    ∀ (s : Store) (tr : Trace),
    (removeOldDocs ns dns names s tr).1.getFile (meta_dir ++ "/" ++ fname) =
      s.getFile (meta_dir ++ "/" ++ fname) := by
  induction names with
  | nil => intro s tr; rfl
  | cons n rest ih =>
    intro s tr
    simp only [removeOldDocs]
    by_cases hn : n ∈ dns
    · rw [if_pos hn]
      exact ih s tr
    · rw [if_neg hn]
      by_cases hp : s.pathExists (meta_dir ++ "/" ++ ns ++ "/" ++ n ++ ".json") = true
      · rw [if_pos hp, ih]
        apply getFile_removeFile_ne
        apply root_ne fname hf _ (ns.data ++ '/' :: (n.data ++ (".json" : String).data))
        · exact List.mem_append.mpr (Or.inr (by simp))
        · simp [String.data_append]
      · rw [if_neg hp]
        exact ih s tr

theorem removeOldDocs_dirs (ns : String) (dns : List String) (names : List String) :
    ∀ (s : Store) (tr : Trace), (removeOldDocs ns dns names s tr).1.dirs = s.dirs := by
  induction names with
  | nil => intro s tr; rfl
  | cons n rest ih =>
    intro s tr
    simp only [removeOldDocs]
    by_cases hn : n ∈ dns
    · rw [if_pos hn]
      exact ih s tr
    · rw [if_neg hn]
      by_cases hp : s.pathExists (meta_dir ++ "/" ++ ns ++ "/" ++ n ++ ".json") = true
      · rw [if_pos hp, ih, removeFile_dirs]
      · rw [if_neg hp]
        exact ih s tr

theorem crawlDocsLoop_getFile_root (R : Remote) (ns : String) (cached : Option Content)
    (fname : String) (hf : '/' ∉ fname.data) (docs : List Rec) :
    ∀ (s : Store) (tr : Trace),
    (crawlDocsLoop R ns cached docs s tr).1.getFile (meta_dir ++ "/" ++ fname) =
      s.getFile (meta_dir ++ "/" ++ fname) := by
  induction docs with
  | nil => intro s tr; rfl
  | cons doc rest ih =>
    intro s tr
    rcases hd : docDecision cached doc with e | b
    · simp only [crawlDocsLoop, hd]
    · rcases b with _ | _
      · simp only [crawlDocsLoop, hd]
        exact ih s tr
      · rcases hfd : R.docDetail ns doc.slug with e | dd
        · simp only [crawlDocsLoop, hd, hfd]
        · simp only [crawlDocsLoop, hd, hfd]
          rw [ih _ _]
          apply save_getFile_root fname hf _ _ _ _
            (ns.data ++ '/' :: (("docs/" : String).data ++ doc.slug.data ++
              (".json" : String).data))
          · exact List.mem_append.mpr (Or.inr (by simp))
          · simp [String.data_append]

theorem crawlDocsLoop_dirs_mem (R : Remote) (ns : String) (cached : Option Content)
    (docs : List Rec) :
    ∀ (s : Store) (tr : Trace) (d : Path), d ∈ s.dirs →
    d ∈ (crawlDocsLoop R ns cached docs s tr).1.dirs := by
  induction docs with
  | nil => intro s tr d h; exact h
  | cons doc rest ih =>
    intro s tr d h
    rcases hd : docDecision cached doc with e | b
    · simp only [crawlDocsLoop, hd]
      exact h
    · rcases b with _ | _
      · simp only [crawlDocsLoop, hd]
        exact ih s tr d h
      · rcases hfd : R.docDetail ns doc.slug with e | dd
        · simp only [crawlDocsLoop, hd, hfd]
          exact h
        · simp only [crawlDocsLoop, hd, hfd]
          exact ih _ _ d (save_dirs_mem _ _ _ _ d h)

theorem crawl_repo_getFile_root (R : Remote) (ns : String) (s : Store) (tr : Trace)
    (fname : String) (hf : '/' ∉ fname.data) :
    (crawl_repo R ns s tr).1.getFile (meta_dir ++ "/" ++ fname) =
      s.getFile (meta_dir ++ "/" ++ fname) := by
  rcases h1 : Cache.get_repo_detail s ns with e1 | cached
  · simp only [crawl_repo, h1]
  · rcases h2 : repoDetailDecision cached (R.repoDetail ns) with e2 | b
    · simp only [crawl_repo, h1, h2]
    · rcases b with _ | _
      · simp only [crawl_repo, h1, h2]
      · rcases h3 : Cache.get_doc_names s ns with e3 | cachedNames
        · simp only [crawl_repo, h1, h2, h3]
        · rcases h4 : Cache.get_docs
              (removeOldDocs ns (List.map (fun x => x.slug) (R.docs ns)) cachedNames s tr).1 ns
            with e4 | cachedDocs
          · simp only [crawl_repo, h1, h2, h3, h4]
            exact removeOldDocs_getFile_root ns _ fname hf cachedNames s tr
          · rcases h5 : crawlDocsLoop R ns cachedDocs (R.docs ns)
                (removeOldDocs ns (List.map (fun x => x.slug) (R.docs ns)) cachedNames s tr).1
                (removeOldDocs ns (List.map (fun x => x.slug) (R.docs ns)) cachedNames s tr).2
              with ⟨s2, tr2, e5⟩
            have hloop := crawlDocsLoop_getFile_root R ns cachedDocs fname hf (R.docs ns)
              (removeOldDocs ns (List.map (fun x => x.slug) (R.docs ns)) cachedNames s tr).1
              (removeOldDocs ns (List.map (fun x => x.slug) (R.docs ns)) cachedNames s tr).2
            rw [h5] at hloop
            simp only at hloop
            rw [removeOldDocs_getFile_root ns _ fname hf cachedNames s tr] at hloop
            cases e5 with
            | none =>
              simp only [crawl_repo, h1, h2, h3, h4, h5]
              rw [save_getFile_root fname hf _ _ _ _
                  (ns.data ++ '/' :: ("repo.json" : String).data)
                  (List.mem_append.mpr (Or.inr (by simp))) (by simp [String.data_append]),
                save_getFile_root fname hf _ _ _ _
                  (ns.data ++ '/' :: ("toc.yaml" : String).data)
                  (List.mem_append.mpr (Or.inr (by simp))) (by simp [String.data_append]),
                save_getFile_root fname hf _ _ _ _
                  (ns.data ++ '/' :: ("docs.json" : String).data)
                  (List.mem_append.mpr (Or.inr (by simp))) (by simp [String.data_append])]
              exact hloop
            | some e5v =>
              simp only [crawl_repo, h1, h2, h3, h4, h5]
              exact hloop

theorem crawl_repo_dirs_mem (R : Remote) (ns : String) (s : Store) (tr : Trace) (d : Path)
    (h : d ∈ s.dirs) : d ∈ (crawl_repo R ns s tr).1.dirs := by
  rcases h1 : Cache.get_repo_detail s ns with e1 | cached
  · simp only [crawl_repo, h1]
    exact h
  · rcases h2 : repoDetailDecision cached (R.repoDetail ns) with e2 | b
    · simp only [crawl_repo, h1, h2]
      exact h
    · rcases b with _ | _
      · simp only [crawl_repo, h1, h2]
        exact h
      · rcases h3 : Cache.get_doc_names s ns with e3 | cachedNames
        · simp only [crawl_repo, h1, h2, h3]
          exact h
        · have hrm : d ∈ (removeOldDocs ns (List.map (fun x => x.slug) (R.docs ns))
              cachedNames s tr).1.dirs := by
            rw [removeOldDocs_dirs]
            exact h
          rcases h4 : Cache.get_docs
              (removeOldDocs ns (List.map (fun x => x.slug) (R.docs ns)) cachedNames s tr).1 ns
            with e4 | cachedDocs
          · simp only [crawl_repo, h1, h2, h3, h4]
            exact hrm
          · rcases h5 : crawlDocsLoop R ns cachedDocs (R.docs ns)
                (removeOldDocs ns (List.map (fun x => x.slug) (R.docs ns)) cachedNames s tr).1
                (removeOldDocs ns (List.map (fun x => x.slug) (R.docs ns)) cachedNames s tr).2
              with ⟨s2, tr2, e5⟩
            have hloop := crawlDocsLoop_dirs_mem R ns cachedDocs (R.docs ns)
              (removeOldDocs ns (List.map (fun x => x.slug) (R.docs ns)) cachedNames s tr).1
              (removeOldDocs ns (List.map (fun x => x.slug) (R.docs ns)) cachedNames s tr).2
              d hrm
            rw [h5] at hloop
            simp only at hloop
            cases e5 with
            | none =>
              simp only [crawl_repo, h1, h2, h3, h4, h5]
              exact save_dirs_mem _ _ _ _ d (save_dirs_mem _ _ _ _ d
                (save_dirs_mem _ _ _ _ d hloop))
            | some e5v =>
              simp only [crawl_repo, h1, h2, h3, h4, h5]
              exact hloop

theorem crawlReposLoop_getFile_root (R : Remote) (cached : Option Content)
    (fname : String) (hf : '/' ∉ fname.data) (repos : List Rec) :
    ∀ (s : Store) (tr : Trace),
    (crawlReposLoop R cached repos s tr).1.getFile (meta_dir ++ "/" ++ fname) =
      s.getFile (meta_dir ++ "/" ++ fname) := by
  induction repos with
  | nil => intro s tr; rfl
  | cons repo rest ih =>
    intro s tr
    rcases hd : repoDecision cached repo with e | b
    · simp only [crawlReposLoop, hd]
    · rcases b with _ | _
      · simp only [crawlReposLoop, hd]
        exact ih s tr
      · rcases hcr : crawl_repo R repo.ns s tr with ⟨s2, tr2, e2⟩
        have hpres := crawl_repo_getFile_root R repo.ns s tr fname hf
        rw [hcr] at hpres
        simp only at hpres
        cases e2 with
        | none =>
          simp only [crawlReposLoop, hd, hcr]
          rw [ih s2 tr2]
          exact hpres
        | some e2v =>
          simp only [crawlReposLoop, hd, hcr]
          exact hpres

theorem crawlReposLoop_dirs_mem (R : Remote) (cached : Option Content) (repos : List Rec) :
    ∀ (s : Store) (tr : Trace) (d : Path), d ∈ s.dirs →
    d ∈ (crawlReposLoop R cached repos s tr).1.dirs := by
  induction repos with
  | nil => intro s tr d h; exact h
  | cons repo rest ih =>
    intro s tr d h
    rcases hd : repoDecision cached repo with e | b
    · simp only [crawlReposLoop, hd]
      exact h
    · rcases b with _ | _
      · simp only [crawlReposLoop, hd]
        exact ih s tr d h
      · rcases hcr : crawl_repo R repo.ns s tr with ⟨s2, tr2, e2⟩
        have hpres := crawl_repo_dirs_mem R repo.ns s tr d h
        rw [hcr] at hpres
        simp only at hpres
        cases e2 with
        | none =>
          simp only [crawlReposLoop, hd, hcr]
          exact ih s2 tr2 d hpres
        | some e2v =>
          simp only [crawlReposLoop, hd, hcr]
          exact hpres

theorem data_docs_dir : ("/docs/" : String).data = '/' :: ("docs/" : String).data := rfl

theorem data_docs_json : ("/docs.json" : String).data = '/' :: ("docs.json" : String).data := rfl

theorem data_toc_yaml : ("/toc.yaml" : String).data = '/' :: ("toc.yaml" : String).data := rfl

theorem data_repo_json : ("/repo.json" : String).data = '/' :: ("repo.json" : String).data := rfl

theorem INV_save_under (login : String) (rns : List String) (slug : String)
    (hslug : '/' ∉ slug.data) (hmem : slug ∈ rns) (s : Store) (tr : Trace) (fp : String)
    (c : Content) (w : List Char)
    (hshape : (meta_dir ++ "/" ++ fp).data = (loginPre login).data ++ (slug.data ++ '/' :: w))
    (h : INV login rns s) : INV login rns (save_to_storage s tr fp c).1 := by
  unfold save_to_storage
  simp only
  refine INV_writeFile login rns _ _ c ?_ (INV_makedirs login rns s _ ?_ h)
  · right; left
    rw [nextSeg_deep (loginPre login) slug w _ hslug hshape]
    exact hmem
  · by_cases hpre : strPre (loginPre login) (dirname (meta_dir ++ "/" ++ fp)) = true
    · right
      have hmem2 : '/' ∈ (meta_dir ++ "/" ++ fp).data := by
        rw [hshape]
        exact List.mem_append.mpr (Or.inr (List.mem_append.mpr (Or.inr (by simp))))
      obtain ⟨t', ht', hnt'⟩ := dirname_decomp _ hmem2
      obtain ⟨u, hu⟩ := (strPre_iff _ _).mp hpre
      have hcanc : u ++ '/' :: t' = slug.data ++ '/' :: w := by
        apply @List.append_cancel_left _ (loginPre login).data _ _
        rw [← List.append_assoc, hu, ← ht', hshape]
      rw [seg_of_under login slug hslug _ u hu.symm w t' hcanc]
      exact hmem
    · left
      exact (Bool.not_eq_true _) ▸ hpre

theorem INV_removeOldDocs (login : String) (rns : List String) (ns : String)
    (dns : List String) (names : List String) :
    ∀ (s : Store) (tr : Trace), INV login rns s →
    INV login rns (removeOldDocs ns dns names s tr).1 := by
  induction names with
  | nil => intro s tr h; exact h
  | cons n rest ih =>
    intro s tr h
    simp only [removeOldDocs]
    by_cases hn : n ∈ dns
    · rw [if_pos hn]
      exact ih s tr h
    · rw [if_neg hn]
      by_cases hp : s.pathExists (meta_dir ++ "/" ++ ns ++ "/" ++ n ++ ".json") = true
      · rw [if_pos hp]
        exact ih _ _ (INV_removeFile login rns s _ h)
      · rw [if_neg hp]
        exact ih s tr h

theorem INV_crawlDocsLoop (login : String) (rns : List String) (slug : String)
    (hslug : '/' ∉ slug.data) (hmem : slug ∈ rns) (R : Remote) (ns : String)
    (hns : ns = login ++ "/" ++ slug) (cached : Option Content) (docs : List Rec) :
    ∀ (s : Store) (tr : Trace), INV login rns s →
    INV login rns (crawlDocsLoop R ns cached docs s tr).1 := by
  induction docs with
  | nil => intro s tr h; exact h
  | cons doc rest ih =>
    intro s tr h
    rcases hd : docDecision cached doc with e | b
    · simp only [crawlDocsLoop, hd]
      exact h
    · rcases b with _ | _
      · simp only [crawlDocsLoop, hd]
        exact ih s tr h
      · rcases hfd : R.docDetail ns doc.slug with e | dd
        · simp only [crawlDocsLoop, hd, hfd]
          exact h
        · simp only [crawlDocsLoop, hd, hfd]
          apply ih
          apply INV_save_under login rns slug hslug hmem s tr _ _
            (("docs/" : String).data ++ doc.slug.data ++ (".json" : String).data) ?_ h
          subst hns
          apply @List.append_cancel_left _ ([] : List Char) _ _
          simp [loginPre, String.data_append, data_slash_lit, data_docs_dir,
            List.append_assoc]

theorem INV_crawl_repo (login : String) (rns : List String) (slug : String)
    (hslug : '/' ∉ slug.data) (hmem : slug ∈ rns) (R : Remote) (ns : String)
    (hns : ns = login ++ "/" ++ slug) (s : Store) (tr : Trace)
    (h : INV login rns s) : INV login rns (crawl_repo R ns s tr).1 := by
  rcases h1 : Cache.get_repo_detail s ns with e1 | cached
  · simp only [crawl_repo, h1]
    exact h
  · rcases h2 : repoDetailDecision cached (R.repoDetail ns) with e2 | b
    · simp only [crawl_repo, h1, h2]
      exact h
    · rcases b with _ | _
      · simp only [crawl_repo, h1, h2]
        exact h
      · rcases h3 : Cache.get_doc_names s ns with e3 | cachedNames
        · simp only [crawl_repo, h1, h2, h3]
          exact h
        · have hrm := INV_removeOldDocs login rns ns
            (List.map (fun x => x.slug) (R.docs ns)) cachedNames s tr h
          rcases h4 : Cache.get_docs
              (removeOldDocs ns (List.map (fun x => x.slug) (R.docs ns)) cachedNames s tr).1 ns
            with e4 | cachedDocs
          · simp only [crawl_repo, h1, h2, h3, h4]
            exact hrm
          · rcases h5 : crawlDocsLoop R ns cachedDocs (R.docs ns)
                (removeOldDocs ns (List.map (fun x => x.slug) (R.docs ns)) cachedNames s tr).1
                (removeOldDocs ns (List.map (fun x => x.slug) (R.docs ns)) cachedNames s tr).2
              with ⟨s2, tr2, e5⟩
            have hloop := INV_crawlDocsLoop login rns slug hslug hmem R ns hns cachedDocs
              (R.docs ns)
              (removeOldDocs ns (List.map (fun x => x.slug) (R.docs ns)) cachedNames s tr).1
              (removeOldDocs ns (List.map (fun x => x.slug) (R.docs ns)) cachedNames s tr).2
              hrm
            rw [h5] at hloop
            simp only at hloop
            cases e5 with
            | none =>
              simp only [crawl_repo, h1, h2, h3, h4, h5]
              apply INV_save_under login rns slug hslug hmem _ _ _ _
                (("repo.json" : String).data) ?hs1
              apply INV_save_under login rns slug hslug hmem _ _ _ _
                (("toc.yaml" : String).data) ?hs2
              apply INV_save_under login rns slug hslug hmem _ _ _ _
                (("docs.json" : String).data) ?hs3
              exact hloop
              case hs1 =>
                subst hns
                simp [loginPre, String.data_append, data_slash_lit, data_repo_json,
                  List.append_assoc]
              case hs2 =>
                subst hns
                simp [loginPre, String.data_append, data_slash_lit, data_toc_yaml,
                  List.append_assoc]
              case hs3 =>
                subst hns
                simp [loginPre, String.data_append, data_slash_lit, data_docs_json,
                  List.append_assoc]
            | some e5v =>
              simp only [crawl_repo, h1, h2, h3, h4, h5]
              exact hloop

theorem INV_crawlReposLoop (login : String) (rns : List String) (R : Remote)
    (cached : Option Content) (repos : List Rec)
    (hall : ∀ r ∈ repos, r.ns = login ++ "/" ++ r.slug ∧ '/' ∉ r.slug.data ∧ r.slug ∈ rns) :
    ∀ (s : Store) (tr : Trace), INV login rns s →
    INV login rns (crawlReposLoop R cached repos s tr).1 := by
  induction repos with
  | nil => intro s tr h; exact h
  | cons repo rest ih =>
    intro s tr h
    have hrepo := hall repo (by simp)
    have hrest : ∀ r ∈ rest, r.ns = login ++ "/" ++ r.slug ∧ '/' ∉ r.slug.data ∧
        r.slug ∈ rns := fun r hr => hall r (by simp [hr])
    rcases hd : repoDecision cached repo with e | b
    · simp only [crawlReposLoop, hd]
      exact h
    · rcases b with _ | _
      · simp only [crawlReposLoop, hd]
        exact ih hrest s tr h
      · rcases hcr : crawl_repo R repo.ns s tr with ⟨s2, tr2, e2⟩
        have hpres := INV_crawl_repo login rns repo.slug hrepo.2.1 hrepo.2.2 R repo.ns
          hrepo.1 s tr h
        rw [hcr] at hpres
        simp only at hpres
        cases e2 with
        | none =>
          simp only [crawlReposLoop, hd, hcr]
          exact ih hrest s2 tr2 hpres
        | some e2v =>
          simp only [crawlReposLoop, hd, hcr]
          exact hpres

theorem strPre_slash_false_of_le (p q : String) (h : q.data.length ≤ p.data.length) :
    strPre (p ++ "/") q = false := by
  by_contra hc
  have hb : strPre (p ++ "/") q = true := by
    cases hx : strPre (p ++ "/") q
    · exact absurd hx hc
    · rfl
  have hl := ((strPre_iff _ _).mp hb).length_le
  have h1 : (("/" : String).data).length = 1 := rfl
  rw [String.data_append, List.length_append, h1] at hl
  omega

theorem get_local_repo_names_ok (s : Store) (user : String) (ln : List String)
    (h : Cache.get_local_repo_names s user = .ok ln) :
    s.isDir (meta_dir ++ "/" ++ user) = true ∧
    ln = (s.listdirNames (meta_dir ++ "/" ++ user)).filter
      (fun x => s.isDir (meta_dir ++ "/" ++ user ++ "/" ++ x)) := by
  simp only [Cache.get_local_repo_names, Store.listdir] at h
  by_cases hd : s.isDir (meta_dir ++ "/" ++ user) = true
  · rw [if_pos hd] at h
    simp only at h
    injection h with h1
    exact ⟨hd, h1.symm⟩
  · rw [if_neg hd] at h
    by_cases hp : s.pathExists (meta_dir ++ "/" ++ user) = true
    · simp only [if_pos hp] at h
      simp at h
    · simp only [if_neg hp] at h
      simp at h

theorem deep_pre (login n : String) (q : String) (t : List Char)
    (hdeep : q.data = (loginPre login).data ++ (n.data ++ '/' :: t)) :
    strPre (meta_dir ++ "/" ++ login ++ "/" ++ n ++ "/") q = true := by
  apply (strPre_iff _ _).mpr
  refine ⟨t, ?_⟩
  rw [hdeep]
  simp [loginPre, String.data_append, data_slash_lit, List.append_assoc]

theorem pre_of_deep (login n : String) (q : String) (t : List Char) (hnsl : '/' ∉ n.data)
    (hd : q.data = (loginPre login).data ++ (n.data ++ '/' :: t)) :
    strPre (loginPre login) q = true ∧ nextSeg (loginPre login) q = n :=
  ⟨(strPre_iff _ _).mpr ⟨_, hd.symm⟩, nextSeg_deep _ _ t _ hnsl hd⟩

theorem deep_of_pre (login n : String) (d : String)
    (h : strPre (meta_dir ++ "/" ++ login ++ "/" ++ n ++ "/") d = true) :
    ∃ t, d.data = (loginPre login).data ++ (n.data ++ '/' :: t) := by
  obtain ⟨t, ht⟩ := (strPre_iff _ _).mp h
  refine ⟨t, ?_⟩
  rw [← ht]
  simp [loginPre, String.data_append, data_slash_lit, List.append_assoc]

theorem INV_after_deletion (login : String) (rns : List String) (sA : Store) (trA : Trace)
    (ln : List String)
    (hlrn : Cache.get_local_repo_names sA login = .ok ln) :
    INV login rns (removeOldRepos login rns ln sA trA).1 := by
  obtain ⟨hdir, hln⟩ := get_local_repo_names_ok sA login ln hlrn
  constructor
  · intro f hf hpre hseg
    rcases strPre_loginPre_decomp login f.1 hpre with hflat | ⟨t, hdeep⟩
    · exact hflat
    · exfalso
      have hfA : f ∈ sA.files := removeOldRepos_files_sub login rns ln sA trA f hf
      have hmemln : nextSeg (loginPre login) f.1 ∈ ln := by
        rw [hln]
        apply List.mem_filter.mpr
        constructor
        · apply (mem_listdirNames sA (meta_dir ++ "/" ++ login)
            (nextSeg (loginPre login) f.1)).mpr
          exact ⟨f.1, List.mem_append.mpr (Or.inl (List.mem_map.mpr ⟨f, hfA, rfl⟩)),
            hpre, rfl⟩
        · apply (isDir_iff sA _).mpr
          exact Or.inr ⟨f, hfA, deep_pre login _ f.1 t hdeep⟩
      have hrem := removeOldRepos_removes_files login rns ln sA trA
        (nextSeg (loginPre login) f.1) f hmemln hseg hf
      exact hrem (Or.inr (deep_pre login _ f.1 t hdeep))
  · intro d hd hpre
    by_contra hseg
    have hdA : d ∈ sA.dirs := removeOldRepos_dirs_sub login rns ln sA trA d hd
    have hmemln : nextSeg (loginPre login) d ∈ ln := by
      rw [hln]
      apply List.mem_filter.mpr
      refine ⟨(mem_listdirNames sA (meta_dir ++ "/" ++ login)
        (nextSeg (loginPre login) d)).mpr
        ⟨d, List.mem_append.mpr (Or.inr hdA), hpre, rfl⟩, ?_⟩
      apply (isDir_iff sA _).mpr
      rcases strPre_loginPre_decomp login d hpre with hflat | ⟨t, hdeep⟩
      · exact Or.inl ⟨d, hdA, Or.inl hflat⟩
      · exact Or.inl ⟨d, hdA, Or.inr (deep_pre login _ d t hdeep)⟩
    have hrem := removeOldRepos_removes_dirs login rns ln sA trA
      (nextSeg (loginPre login) d) d hmemln hseg hd
    rcases strPre_loginPre_decomp login d hpre with hflat | ⟨t, hdeep⟩
    · exact hrem (Or.inl hflat)
    · exact hrem (Or.inr (deep_pre login _ d t hdeep))

theorem INV_listed_names_in_rns (login : String) (rns : List String) (s1 : Store)
    (hinv : INV login rns s1) (n : String)
    (hn : n ∈ (s1.listdirNames (meta_dir ++ "/" ++ login)).filter
      (fun x => s1.isDir (meta_dir ++ "/" ++ login ++ "/" ++ x))) : n ∈ rns := by
  obtain ⟨hlist, hdir⟩ := List.mem_filter.mp hn
  obtain ⟨q, hq, hpre, hnseg⟩ := (mem_listdirNames s1 (meta_dir ++ "/" ++ login) n).mp hlist
  have hnsl : '/' ∉ n.data := by
    rw [hnseg]
    exact nextSeg_no_slash _ _
  by_contra hnr
  rcases (isDir_iff s1 _).mp hdir with ⟨d, hdm, hdc⟩ | ⟨f, hfm, hfc⟩
  · rcases hdc with hdc | hdc
    · have hfacts : strPre (loginPre login) d = true ∧ nextSeg (loginPre login) d = n := by
        constructor
        · apply (strPre_iff _ _).mpr
          refine ⟨n.data, ?_⟩
          rw [hdc]
          show (loginPre login).data ++ n.data = (loginPre login ++ n).data
          rw [String.data_append]
        · apply nextSeg_flat _ _ _ hnsl
          rw [hdc]
          show (loginPre login ++ n).data = (loginPre login).data ++ n.data
          rw [String.data_append]
      have := hinv.2 d hdm hfacts.1
      rw [hfacts.2] at this
      exact hnr this
    · obtain ⟨t, ht⟩ := deep_of_pre login n d hdc
      have hfacts := pre_of_deep login n d t hnsl ht
      have := hinv.2 d hdm hfacts.1
      rw [hfacts.2] at this
      exact hnr this
  · obtain ⟨t, ht⟩ := deep_of_pre login n f.1 hfc
    have hfacts := pre_of_deep login n f.1 t hnsl ht
    have hflat := hinv.1 f hfm hfacts.1 (by rw [hfacts.2]; exact hnr)
    have hlen := congrArg (fun x => x.data.length) hflat
    simp only at hlen
    rw [ht, hfacts.2, String.data_append] at hlen
    simp at hlen

theorem data_repos_json : ("/repos.json" : String).data = '/' :: ("repos.json" : String).data := rfl

theorem str_len_app (a b : String) : (a ++ b).data.length = a.data.length + b.data.length := by
  rw [String.data_append, List.length_append]

theorem request_ok_some (s : Store) (api : String) (cn : Option String) (c : Content)
    (h : Cache.request s api cn = .ok (some c)) :
    s.getFile (meta_dir ++ "/" ++ (cn.getD api) ++ ".json") = some c := by
  simp only [Cache.request] at h
  split at h
  · split at h
    · injection h with h1
      rename_i heq
      rw [heq]
      injection h1 with h2
      rw [h2]
    · exact absurd h (by simp)
  · injection h with h1
    exact absurd h1 (by simp)

theorem request_of_getFile (s : Store) (api : String) (cn : Option String) (c : Content)
    (h : s.getFile (meta_dir ++ "/" ++ (cn.getD api) ++ ".json") = some c) :
    Cache.request s api cn = .ok (some c) := by
  simp only [Cache.request]
  have hex : s.pathExists (meta_dir ++ "/" ++ (cn.getD api) ++ ".json") = true := by
    unfold Store.pathExists
    rw [h]
    simp
  rw [if_pos hex, h]

theorem pre_root_false (fname : String) (hf : '/' ∉ fname.data) (x : String) (m : List Char)
    (hm : '/' ∈ m) (hx : x.data = (meta_dir ++ "/").data ++ m) :
    strPre x (meta_dir ++ "/" ++ fname) = false := by
  by_contra hc
  have hb : strPre x (meta_dir ++ "/" ++ fname) = true := by
    cases hz : strPre x (meta_dir ++ "/" ++ fname)
    · exact absurd hz hc
    · rfl
  obtain ⟨t, ht⟩ := (strPre_iff _ _).mp hb
  rw [hx, String.data_append, List.append_assoc] at ht
  have := List.append_cancel_left ht
  apply hf
  rw [← this]
  exact List.mem_append.mpr (Or.inl hm)

theorem first_candidate_self (L : List Rec) (hnd : (L.map (fun x => x.slug)).Nodup)
    (r : Rec) (hr : r ∈ L) : first_candidate L r.slug = some r := by
  induction L with
  | nil => simp at hr
  | cons x rest ih =>
    rw [List.map_cons, List.nodup_cons] at hnd
    unfold first_candidate
    by_cases hx : x.slug = r.slug
    · have hxr : x = r := by
        rcases List.mem_cons.mp hr with hcase | hcase
        · exact hcase.symm
        · exfalso
          apply hnd.1
          rw [hx]
          exact List.mem_map.mpr ⟨r, hcase, rfl⟩
      rw [List.filter_cons_of_pos (by simp [hx])]
      simp [hxr]
    · have hrr : r ∈ rest := by
        rcases List.mem_cons.mp hr with hcase | hcase
        · exact absurd (by rw [hcase] : x.slug = r.slug) hx
        · exact hcase
      rw [List.filter_cons_of_neg (by simp [hx])]
      exact ih hnd.2 hrr

theorem has_update_self (r : Rec) (h : r.updated_at.isSome) : has_update r r = .ok false := by
  obtain ⟨t, ht⟩ := Option.isSome_iff_exists.mp h
  simp [has_update, parse_ts, ht, timedelta_seconds]

theorem repoDecision_self (repos : List Rec) (hnd : (repos.map (fun x => x.slug)).Nodup)
    (r : Rec) (hr : r ∈ repos) (hts : r.updated_at.isSome) :
    repoDecision (some (Content.list repos)) r = .ok false := by
  simp [repoDecision, first_candidate_self repos hnd r hr, has_update_self r hts]

theorem crawlReposLoop_skip_all (R : Remote) (cached : Option Content) (L : List Rec)
    (h : ∀ r ∈ L, repoDecision cached r = .ok false) :
    ∀ (s : Store) (tr : Trace), crawlReposLoop R cached L s tr = (s, tr, none) := by
  induction L with
  | nil => intro s tr; rfl
  | cons r rest ih =>
    intro s tr
    simp only [crawlReposLoop, h r (by simp)]
    exact ih (fun x hx => h x (by simp [hx])) s tr

theorem userRead_eq : meta_dir ++ "/" ++ "user" ++ ".json" = meta_dir ++ "/" ++ "user.json" := rfl

theorem readRepos_eq (login : String) :
    meta_dir ++ "/" ++ (login ++ "/repos") ++ ".json" =
      meta_dir ++ "/" ++ (login ++ "/repos.json") := by
  apply String.ext
  have h : ("/repos" : String).data ++ (".json" : String).data =
      ("/repos.json" : String).data := rfl
  simp only [String.data_append, List.append_assoc, h]

theorem reposPath_reassoc (login : String) :
    meta_dir ++ "/" ++ (login ++ "/repos.json") =
      meta_dir ++ "/" ++ login ++ "/" ++ "repos.json" := by
  apply String.ext
  simp [String.data_append, data_repos_json, data_slash_lit, List.append_assoc]

theorem dirname_reposPath (login : String) :
    dirname (meta_dir ++ "/" ++ (login ++ "/repos.json")) = meta_dir ++ "/" ++ login := by
  rw [reposPath_reassoc]
  exact dirname_append _ _ (by decide)

theorem main_success_decomp (R : Remote) (s0 s1 : Store) (tr1 : Trace)
    (h : main R s0 = (s1, tr1, none)) :
    ∃ cu upd ln cached_repos sC trC,
      Cache.get_user (s0.makedirs meta_dir) = .ok cu ∧
      userUpdated cu R.user = .ok upd ∧
      Cache.get_local_repo_names
        (if upd = true then save_to_storage (s0.makedirs meta_dir) [] "user.json"
          (Content.record R.user) else (s0.makedirs meta_dir, [])).1 R.user.login = .ok ln ∧
      Cache.get_repos
        (removeOldRepos R.user.login (R.repos.map (fun x => x.slug)) ln
          (if upd = true then save_to_storage (s0.makedirs meta_dir) [] "user.json"
            (Content.record R.user) else (s0.makedirs meta_dir, [])).1
          (if upd = true then save_to_storage (s0.makedirs meta_dir) [] "user.json"
            (Content.record R.user) else (s0.makedirs meta_dir, [])).2).1 R.user.login =
        .ok cached_repos ∧
      crawlReposLoop R cached_repos R.repos
        (removeOldRepos R.user.login (R.repos.map (fun x => x.slug)) ln
          (if upd = true then save_to_storage (s0.makedirs meta_dir) [] "user.json"
            (Content.record R.user) else (s0.makedirs meta_dir, [])).1
          (if upd = true then save_to_storage (s0.makedirs meta_dir) [] "user.json"
            (Content.record R.user) else (s0.makedirs meta_dir, [])).2).1
        (removeOldRepos R.user.login (R.repos.map (fun x => x.slug)) ln
          (if upd = true then save_to_storage (s0.makedirs meta_dir) [] "user.json"
            (Content.record R.user) else (s0.makedirs meta_dir, [])).1
          (if upd = true then save_to_storage (s0.makedirs meta_dir) [] "user.json"
            (Content.record R.user) else (s0.makedirs meta_dir, [])).2).2 =
        (sC, trC, none) ∧
      s1 = (sC.makedirs (dirname (meta_dir ++ "/" ++ (R.user.login ++ "/repos.json")))).writeFile
        (meta_dir ++ "/" ++ (R.user.login ++ "/repos.json")) (Content.list R.repos) ∧
      tr1 = trC ++ [Event.write (meta_dir ++ "/" ++ (R.user.login ++ "/repos.json"))
        (Content.list R.repos)] := by
  simp only [main] at h
  rcases h1 : Cache.get_user (s0.makedirs meta_dir) with e1 | cu
  · simp only [h1] at h
    simp at h
  · simp only [h1] at h
    rcases h2 : userUpdated cu R.user with e2 | upd
    · simp only [h2] at h
      simp at h
    · simp only [h2] at h
      rcases h3 : Cache.get_local_repo_names
          (if upd = true then save_to_storage (s0.makedirs meta_dir) [] "user.json"
            (Content.record R.user) else (s0.makedirs meta_dir, [])).1 R.user.login
        with e3 | ln
      · simp only [h3] at h
        simp at h
      · simp only [h3] at h
        rcases h4 : Cache.get_repos
            (removeOldRepos R.user.login (R.repos.map (fun x => x.slug)) ln
              (if upd = true then save_to_storage (s0.makedirs meta_dir) [] "user.json"
                (Content.record R.user) else (s0.makedirs meta_dir, [])).1
              (if upd = true then save_to_storage (s0.makedirs meta_dir) [] "user.json"
                (Content.record R.user) else (s0.makedirs meta_dir, [])).2).1 R.user.login
          with e4 | cached_repos
        · simp only [h4] at h
          simp at h
        · simp only [h4] at h
          rcases h5 : crawlReposLoop R cached_repos R.repos
              (removeOldRepos R.user.login (R.repos.map (fun x => x.slug)) ln
                (if upd = true then save_to_storage (s0.makedirs meta_dir) [] "user.json"
                  (Content.record R.user) else (s0.makedirs meta_dir, [])).1
                (if upd = true then save_to_storage (s0.makedirs meta_dir) [] "user.json"
                  (Content.record R.user) else (s0.makedirs meta_dir, [])).2).1
              (removeOldRepos R.user.login (R.repos.map (fun x => x.slug)) ln
                (if upd = true then save_to_storage (s0.makedirs meta_dir) [] "user.json"
                  (Content.record R.user) else (s0.makedirs meta_dir, [])).1
                (if upd = true then save_to_storage (s0.makedirs meta_dir) [] "user.json"
                  (Content.record R.user) else (s0.makedirs meta_dir, [])).2).2
            with ⟨sC, trC, e5⟩
          simp only [h5] at h
          cases e5 with
          | none =>
            simp only [save_to_storage, Prod.mk.injEq] at h
            refine ⟨cu, upd, ln, cached_repos, sC, trC, ?_, ?_, ?_, ?_, ?_, ?_, ?_⟩
            · rfl
            · exact h2
            · exact h3
            · exact h4
            · exact h5
            · exact h.1.symm
            · exact h.2.1.symm
          | some e5v => simp at h

theorem removeOldRepos_getFile_root (login : String) (rns names : List String)
    (s : Store) (tr : Trace) (fname : String) (hf : '/' ∉ fname.data) :
    (removeOldRepos login rns names s tr).1.getFile (meta_dir ++ "/" ++ fname) =
      s.getFile (meta_dir ++ "/" ++ fname) := by
  apply removeOldRepos_getFile
  intro n
  constructor
  · apply root_ne fname hf _ (login.data ++ '/' :: n.data) (by simp)
    show (meta_dir ++ "/" ++ login ++ "/" ++ n).data =
      (meta_dir ++ "/").data ++ (login.data ++ '/' :: n.data)
    simp [String.data_append, data_slash_lit, List.append_assoc]
  · apply pre_root_false fname hf _ (login.data ++ '/' :: (n.data ++ ['/'])) (by simp)
    show ((meta_dir ++ "/" ++ login ++ "/" ++ n) ++ "/").data =
      (meta_dir ++ "/").data ++ (login.data ++ '/' :: (n.data ++ ['/']))
    simp [String.data_append, data_slash_lit, List.append_assoc]

theorem removeOldRepos_meta_dir_mem (login : String) (rns names : List String)
    (s : Store) (tr : Trace) (h : meta_dir ∈ s.dirs) :
    meta_dir ∈ (removeOldRepos login rns names s tr).1.dirs := by
  apply removeOldRepos_dirs_keep login rns names s tr meta_dir h
  intro n
  have h2 := not_eq_and_pre_of_shorter (meta_dir ++ "/" ++ login ++ "/" ++ n) meta_dir
    (by
      simp only [str_len_app]
      have h1 : ("/" : String).data.length = 1 := rfl
      simp only [h1]
      omega)
  exact ⟨Ne.symm h2.1, h2.2⟩

theorem get_local_repo_names_of_isDir (s : Store) (user : String)
    (h : s.isDir (meta_dir ++ "/" ++ user) = true) :
    Cache.get_local_repo_names s user =
      .ok ((s.listdirNames (meta_dir ++ "/" ++ user)).filter
        (fun x => s.isDir (meta_dir ++ "/" ++ user ++ "/" ++ x))) := by
  simp only [Cache.get_local_repo_names, Store.listdir, h, if_true]

set_option maxHeartbeats 1000000 in
/-- C5 amended: for a well-formed remote state (distinct repository slugs,
parseable timestamps, namespaces of the form `login/slug`), if the first
run succeeds then the second run with the remote unchanged performs
exactly one store write — the unconditional rewrite of the account's
repository list file `repos.json`, with unchanged content — and leaves
the store identical to the state after the first run.  The original claim
of zero writes on the second run is refuted by the counterexample. -/
theorem second_run_single_write (R : Remote) (s0 s1 : Store) (tr1 : Trace)
    (h1 : main R s0 = (s1, tr1, none))
    (hnodup : (R.repos.map (fun x => x.slug)).Nodup)
    (hts : ∀ r ∈ R.repos, r.updated_at.isSome)
    (hns : ∀ r ∈ R.repos, r.ns = R.user.login ++ "/" ++ r.slug ∧ '/' ∉ r.slug.data)
    (huts : R.user.updated_at.isSome) :
    main R s1 = (s1,
      [Event.write (meta_dir ++ "/" ++ (R.user.login ++ "/repos.json"))
        (Content.list R.repos)], none) := by
  obtain ⟨cu, upd, ln, cached_repos, sC, trC, hcu, hupd, hln, hcr, hloop, hs1, htr⟩ :=
    main_success_decomp R s0 s1 tr1 h1
  set stA : Store × Trace :=
    (if upd = true then save_to_storage (s0.makedirs meta_dir) [] "user.json"
      (Content.record R.user) else (s0.makedirs meta_dir, [])) with hstA
  set st2 : Store × Trace :=
    removeOldRepos R.user.login (R.repos.map (fun x => x.slug)) ln stA.1 stA.2 with hst2
  -- facts about the state after the user-refresh phase
  have hmetaA : meta_dir ∈ stA.1.dirs := by
    rw [hstA]
    by_cases hu : upd = true
    · rw [if_pos hu]
      exact save_dirs_mem _ _ _ _ _ (makedirs_mem_self s0 meta_dir)
    · rw [if_neg hu]
      exact makedirs_mem_self s0 meta_dir
  obtain ⟨c0, hc0get, hc0upd⟩ :
      ∃ c0, stA.1.getFile (meta_dir ++ "/" ++ "user.json") = some c0 ∧
        userUpdated (some c0) R.user = .ok false := by
    rw [hstA]
    by_cases hu : upd = true
    · rw [if_pos hu]
      refine ⟨Content.record R.user, ?_, ?_⟩
      · unfold save_to_storage
        simp only
        exact getFile_writeFile_self _ _ _
      · simp only [userUpdated]
        exact has_update_self R.user huts
    · rw [if_neg hu]
      have hfalse : upd = false := by
        cases upd
        · rfl
        · exact absurd rfl hu
      rw [hfalse] at hupd
      cases cu with
      | none =>
        exfalso
        simp [userUpdated] at hupd
      | some c =>
        refine ⟨c, ?_, hupd⟩
        have hg := request_ok_some (s0.makedirs meta_dir) "user" none c hcu
        simp only [Option.getD_none] at hg
        rw [userRead_eq] at hg
        exact hg
  -- the invariant after run 1
  have hINV2 : INV R.user.login (R.repos.map (fun x => x.slug)) st2.1 := by
    rw [hst2]
    exact INV_after_deletion R.user.login (R.repos.map (fun x => x.slug)) stA.1 stA.2 ln hln
  have hall : ∀ r ∈ R.repos, r.ns = R.user.login ++ "/" ++ r.slug ∧ '/' ∉ r.slug.data ∧
      r.slug ∈ R.repos.map (fun x => x.slug) :=
    fun r hr => ⟨(hns r hr).1, (hns r hr).2, List.mem_map.mpr ⟨r, hr, rfl⟩⟩
  have hINVC := INV_crawlReposLoop R.user.login (R.repos.map (fun x => x.slug)) R
    cached_repos R.repos hall st2.1 st2.2 hINV2
  rw [hloop] at hINVC
  simp only at hINVC
  have hINV1 : INV R.user.login (R.repos.map (fun x => x.slug)) s1 := by
    rw [hs1, dirname_reposPath]
    refine INV_writeFile _ _ _ _ _ ?_ (INV_makedirs _ _ _ _ ?_ hINVC)
    · right; right
      have hqd : (meta_dir ++ "/" ++ (R.user.login ++ "/repos.json")).data =
          (loginPre R.user.login).data ++ ("repos.json" : String).data := by
        rw [reposPath_reassoc]
        show ((loginPre R.user.login) ++ "repos.json").data = _
        rw [String.data_append]
      rw [nextSeg_flat (loginPre R.user.login) "repos.json" _ (by decide) hqd]
      apply str_eq_iff.mpr
      rw [String.data_append]
      exact hqd
    · left
      exact strPre_slash_false_of_le (meta_dir ++ "/" ++ R.user.login)
        (meta_dir ++ "/" ++ R.user.login) le_rfl
  -- directory facts about s1
  have hmeta2 : meta_dir ∈ st2.1.dirs := by
    rw [hst2]
    exact removeOldRepos_meta_dir_mem _ _ _ _ _ hmetaA
  have hmetaC := crawlReposLoop_dirs_mem R cached_repos R.repos st2.1 st2.2 meta_dir hmeta2
  rw [hloop] at hmetaC
  simp only at hmetaC
  have hmeta1 : meta_dir ∈ s1.dirs := by
    rw [hs1, writeFile_dirs]
    exact makedirs_dirs_mem _ _ _ hmetaC
  have hlogin1 : meta_dir ++ "/" ++ R.user.login ∈ s1.dirs := by
    rw [hs1, dirname_reposPath, writeFile_dirs]
    exact makedirs_mem_self _ _
  -- file facts about s1
  have hrepos1 : s1.getFile (meta_dir ++ "/" ++ (R.user.login ++ "/repos.json")) =
      some (Content.list R.repos) := by
    rw [hs1]
    exact getFile_writeFile_self _ _ _
  have hget2 : st2.1.getFile (meta_dir ++ "/" ++ "user.json") =
      stA.1.getFile (meta_dir ++ "/" ++ "user.json") := by
    rw [hst2]
    exact removeOldRepos_getFile_root _ _ _ _ _ "user.json" (by decide)
  have hgetC := crawlReposLoop_getFile_root R cached_repos "user.json" (by decide)
    R.repos st2.1 st2.2
  rw [hloop] at hgetC
  simp only at hgetC
  have hne : meta_dir ++ "/" ++ "user.json" ≠
      meta_dir ++ "/" ++ (R.user.login ++ "/repos.json") := by
    apply root_ne "user.json" (by decide) _ ((R.user.login ++ "/repos.json").data)
    · rw [String.data_append]
      exact List.mem_append.mpr (Or.inr (by decide))
    · exact String.data_append _ _
  have huser1 : s1.getFile (meta_dir ++ "/" ++ "user.json") = some c0 := by
    rw [hs1, getFile_writeFile_ne _ _ _ _ hne, getFile_makedirs, hgetC, hget2, hc0get]
  -- the second run
  have hmk : s1.makedirs meta_dir = s1 := makedirs_of_mem s1 meta_dir hmeta1
  have hgu : Cache.get_user s1 = .ok (some c0) := by
    apply request_of_getFile
    simp only [Option.getD_none]
    rw [userRead_eq]
    exact huser1
  have hdir1 : s1.isDir (meta_dir ++ "/" ++ R.user.login) = true := by
    apply (isDir_iff s1 _).mpr
    exact Or.inl ⟨_, hlogin1, Or.inl rfl⟩
  have hlrn1 := get_local_repo_names_of_isDir s1 R.user.login hdir1
  have hnoop : removeOldRepos R.user.login (R.repos.map (fun x => x.slug))
      ((s1.listdirNames (meta_dir ++ "/" ++ R.user.login)).filter
        (fun x => s1.isDir (meta_dir ++ "/" ++ R.user.login ++ "/" ++ x))) s1 [] =
      (s1, []) := by
    apply removeOldRepos_noop
    intro n hn
    exact INV_listed_names_in_rns R.user.login _ s1 hINV1 n hn
  have hgr : Cache.get_repos s1 R.user.login = .ok (some (Content.list R.repos)) := by
    apply request_of_getFile
    simp only [Option.getD_none]
    rw [readRepos_eq]
    exact hrepos1
  have hskip : ∀ (s : Store) (tr : Trace),
      crawlReposLoop R (some (Content.list R.repos)) R.repos s tr = (s, tr, none) :=
    crawlReposLoop_skip_all R _ R.repos
      (fun r hr => repoDecision_self R.repos hnodup r hr (hts r hr))
  have hmk2 : s1.makedirs (meta_dir ++ "/" ++ R.user.login) = s1 :=
    makedirs_of_mem s1 _ hlogin1
  have hwidem : s1.writeFile (meta_dir ++ "/" ++ (R.user.login ++ "/repos.json"))
      (Content.list R.repos) = s1 := by
    rw [hs1]
    exact writeFile_idem _ _ _
  simp only [main, hmk, hgu, hc0upd, hlrn1, hnoop, hgr, hskip, save_to_storage,
    dirname_reposPath, hmk2, hwidem, List.nil_append, Bool.false_eq_true, if_false]

set_option maxHeartbeats 1000000 in
/-- C5 amended, witness at the concrete idempotence scenario. -/
theorem second_run_single_write_witness :
    main Rc5 (main Rc5 sc5).1 = ((main Rc5 sc5).1,
      [Event.write (meta_dir ++ "/" ++ (Rc5.user.login ++ "/repos.json"))
        (Content.list Rc5.repos)], none) :=
  second_run_single_write Rc5 sc5 (main Rc5 sc5).1 (main Rc5 sc5).2.1
    rfl (by decide) (by decide) (by decide) (by decide)

end Crawl
